import Mathlib

/-!
Verification development for the EADVFS (energy-aware DVFS) scheduling
simulator.  The C++ source (eadvfs_simulator.cpp) is shallowly embedded:
`double` values are modelled as exact rationals, the per-iteration body of
`Simulator::simulate_eadvfs` becomes the step function `stepF`, and the
driver loop becomes fuel-indexed iteration `reach`.  Pointers into the
process vector are modelled as indices.  The field `events` of `SimState`
is ghost instrumentation (it does not exist in the source): it records one
entry per executed idle interval or run segment, carrying the frequency
index actually used, so that the energy decomposition can be stated.  All
other fields mirror the source exactly, including the fact that
`simulate_eadvfs` does not clear the `gantt` log.
-/

namespace EADVFS

/-- Mirrors struct Process: pid, arrival (ms), burst (ms), remaining (ms),
start_time (-1 when not started), finish_time (-1 when not finished). -/
structure Process where
  pid : Int
  arrival : ℚ
  burst : ℚ
  remaining : ℚ
  start_time : ℚ
  finish_time : ℚ
deriving DecidableEq

/-- Mirrors the Process constructor Process(id, a, b): remaining starts at b,
start and finish marks at -1. -/
def mkProcess (id : Int) (a b : ℚ) : Process :=
  ⟨id, a, b, b, -1, -1⟩

/-- Mirrors struct FreqLevel: relative frequency and power in Watts. -/
structure FreqLevel where
  ghz : ℚ
  power : ℚ
  name : String
deriving DecidableEq

/-- Mirrors the FreqLevel default constructor FreqLevel(g=1.0, p=1.0, n="f"). -/
def defaultFL : FreqLevel := ⟨1, 1, "f"⟩

/-- Mirrors struct PowerModel: ordered frequency levels plus idle power. -/
structure PowerModel where
  freqs : List FreqLevel
  idle_power : ℚ
deriving DecidableEq

/-- Mirrors the PowerModel constructor: three hard-coded levels
(1.0 GHz, 1.5 W), (1.5 GHz, 2.6 W), (2.0 GHz, 4.5 W) and idle power 0.2 W. -/
def defaultPowerModel : PowerModel :=
  { freqs := [⟨1, 3/2, "1.0GHz"⟩, ⟨3/2, 13/5, "1.5GHz"⟩, ⟨2, 9/2, "2.0GHz"⟩],
    idle_power := 1/5 }

/-- The short-job threshold of the Scheduler constructor (30 ms). -/
def short_threshold : ℚ := 30

/-- The utilization threshold of the Scheduler constructor (0.6). -/
def util_threshold : ℚ := 3/5

/-- The completion epsilon 1e-9 used throughout the simulator. -/
def eps : ℚ := 1/1000000000

/-- The 1e18 sentinel the source uses when scanning for the next arrival. -/
def SENTINEL : ℚ := 10^18

/-- Mirrors Scheduler::pick_frequency_index: given the ready queue and a
lookahead window, return -1 for an empty queue, the last level index when
short_frac or predicted utilization is high, 0 for long average remaining
demand, and 1 otherwise. -/
def pick_frequency_index (pm : PowerModel) (ready : List Process)
    (lookahead_window_ms : ℚ) : Int :=
  if ready.isEmpty then -1 else
  let sum_rem : ℚ := (ready.map Process.remaining).sum
  let short_count : Nat := ready.countP (fun pr => decide (pr.remaining ≤ short_threshold))
  let avg_rem : ℚ := sum_rem / (ready.length : ℚ)
  let short_frac : ℚ := (short_count : ℚ) / (ready.length : ℚ)
  let util_pred : ℚ := min 1 (sum_rem / max 1 lookahead_window_ms)
  if short_frac > 3/5 ∨ util_pred > util_threshold then (pm.freqs.length : Int) - 1
  else if avg_rem > 200 then 0
  else 1

/-- Helper for pick_next_process_index: scan the tail keeping the running
minimum `best` and its position `idx`; `i` is the position of the list head
in the full ready queue.  Mirrors the for-loop of the source. -/
def pick_next_aux : List Process → Nat → ℚ → Nat → Nat
  | [], _, _, idx => idx
  | p :: rest, i, best, idx =>
    if p.remaining < best then pick_next_aux rest (i+1) p.remaining i
    else pick_next_aux rest (i+1) best idx

/-- Mirrors Scheduler::pick_next_process_index (SRTF): -1 on an empty queue,
otherwise the position of the first process attaining the smallest
remaining demand. -/
def pick_next_process_index (ready : List Process) : Int :=
  match ready with
  | [] => -1
  | p0 :: rest => (pick_next_aux rest 1 p0.remaining 0 : Int)

/-- Ghost event record: one entry per executed idle interval or run
segment.  A run segment remembers the frequency index that was used, which
the merged gantt log of the source cannot express. -/
inductive Ev where
  | idle (dur : ℚ)
  | run (pid : Int) (dur : ℚ) (fi : Nat)
deriving DecidableEq

/-- Energy of one ghost event, exactly as the source accrues it:
idle_power × duration/1000 for idle, level power × duration/1000 for runs. -/
def evEnergy (ev : Ev) : ℚ :=
  match ev with
  | .idle d => defaultPowerModel.idle_power * (d / 1000)
  | .run _ d fi => (defaultPowerModel.freqs.getD fi defaultFL).power * (d / 1000)

/-- Total energy of a ghost event list. -/
def eventsEnergy (l : List Ev) : ℚ := (l.map evEnergy).sum

/-- Mirrors the mutable fields of struct Simulator (procs, current_time,
energy, busy_time, gantt) plus the ghost `events` log. -/
structure SimState where
  procs : List Process
  current_time : ℚ
  energy : ℚ
  busy_time : ℚ
  gantt : List (Int × ℚ)
  events : List Ev
deriving DecidableEq

/-- How the simulation loop ended: ready set empty with no visible future
arrival, all demand satisfied after a run segment, or the horizon guard. -/
inductive StopKind where
  | idleDone
  | allDone
  | horizon
deriving DecidableEq

/-- Result of one loop iteration: the successor state and, when one of the
three break statements fired, which one. -/
structure StepOut where
  state : SimState
  stop : Option StopKind
deriving DecidableEq

/-- Build the ready queue exactly as the loop does: processes with
arrival ≤ current time and remaining > 1e-9, in vector order; the Nat
component is the position in `procs` (modelling the C++ pointer). -/
def readyAux (t : ℚ) : List Process → Nat → List (Nat × Process)
  | [], _ => []
  | p :: rest, i =>
    if p.arrival ≤ t ∧ eps < p.remaining then (i, p) :: readyAux t rest (i+1)
    else readyAux t rest (i+1)

/-- The ready queue of a state. -/
def readyOf (s : SimState) : List (Nat × Process) :=
  readyAux s.current_time s.procs 0

/-- Mirrors the next_arrival scan of the loop head: running value starts at
the 1e18 sentinel, and a process updates it when its arrival is strictly
after `t` and strictly below the running value; the Bool records whether
any update happened (next_arrival != nullptr). -/
def nextArrAux (t : ℚ) : List Process → ℚ × Bool → ℚ × Bool
  | [], acc => acc
  | p :: rest, acc =>
    nextArrAux t rest (if t < p.arrival ∧ p.arrival < acc.1 then (p.arrival, true) else acc)

/-- The (next_arrival_time, next_arrival != nullptr) pair of the loop head. -/
def nextArrival (procs : List Process) (t : ℚ) : ℚ × Bool :=
  nextArrAux t procs (SENTINEL, false)

/-- Mirrors the next_event_time scan of the busy branch: fold min over the
arrivals strictly after `t`, starting from the 1e18 sentinel. -/
def nextEvAux (t : ℚ) : List Process → ℚ → ℚ
  | [], v => v
  | p :: rest, v => nextEvAux t rest (if t < p.arrival then min v p.arrival else v)

/-- The next_event_time value of the busy branch. -/
def nextEvent (procs : List Process) (t : ℚ) : ℚ :=
  nextEvAux t procs SENTINEL

/-- Mirrors the frequency choice of the busy branch: pick_frequency_index
with the fixed 200 ms lookahead, coerced to 0 when negative. -/
def chosenFi (ready : List Process) : Nat :=
  let fi0 := pick_frequency_index defaultPowerModel ready 200
  if fi0 < 0 then 0 else fi0.toNat

/-- The frequency index used by a busy iteration of state `s`. -/
def selFi (s : SimState) : Nat := chosenFi ((readyOf s).map Prod.snd)

/-- The frequency level used by a busy iteration of state `s`. -/
def selFl (s : SimState) : FreqLevel :=
  defaultPowerModel.freqs.getD (selFi s) defaultFL

/-- The (position, process) pair the SRTF policy selects in state `s`. -/
def selEntry (s : SimState) : Nat × Process :=
  (readyOf s).getD
    (pick_next_process_index ((readyOf s).map Prod.snd)).toNat
    (0, mkProcess 0 0 0)

/-- The run_until value of the busy branch: completion time at the chosen
speed, clipped by next_event_time and then by the 50 ms quantum. -/
def runUntilOf (s : SimState) : ℚ :=
  let fl := selFl s
  let p := (selEntry s).2
  let next_event := nextEvent s.procs s.current_time
  let completion_time := s.current_time + p.remaining / fl.ghz
  let run_until0 := if next_event < completion_time then next_event else completion_time
  if run_until0 - s.current_time > 50 then s.current_time + 50 else run_until0

/-- The run_time of the busy branch. -/
def runTimeOf (s : SimState) : ℚ := runUntilOf s - s.current_time

/-- Mirrors the gantt update: merge into the last entry when it has the same
pid, otherwise push a new (pid, duration) entry. -/
def ganttAppend : List (Int × ℚ) → Int → ℚ → List (Int × ℚ)
  | [], pid, d => [(pid, d)]
  | [e], pid, d => if e.1 = pid then [(e.1, e.2 + d)] else [e, (pid, d)]
  | e :: rest, pid, d => e :: ganttAppend rest pid d

/-- Sum of the durations recorded in a gantt log. -/
def ganttTotal (g : List (Int × ℚ)) : ℚ := (g.map Prod.snd).sum

/-- The process record written back by an executing busy iteration: stamp
the start time if unset, apply work_done = run_time × speed to the
remaining demand clamped at 0, and stamp the finish time at the advanced
clock when the job completes. -/
def runProcOf (s : SimState) : Process :=
  let p := (selEntry s).2
  let p1 := if p.start_time < 0 then { p with start_time := s.current_time } else p
  let p2 := { p1 with remaining := max 0 (p1.remaining - runTimeOf s * (selFl s).ghz) }
  if p2.remaining ≤ eps then
    { p2 with finish_time := s.current_time + runTimeOf s }
  else p2

/-- The state produced by an executing busy iteration (run_time > 0):
write back the run process, accrue energy and busy time, extend the gantt
log and the ghost event log, and advance the clock. -/
def execState (s : SimState) : SimState :=
  { procs := s.procs.set (selEntry s).1 (runProcOf s),
    current_time := s.current_time + runTimeOf s,
    energy := s.energy + (selFl s).power * (runTimeOf s / 1000),
    busy_time := s.busy_time + runTimeOf s,
    gantt := ganttAppend s.gantt (selEntry s).2.pid (runTimeOf s),
    events := s.events ++ [.run (selEntry s).2.pid (runTimeOf s) (selFi s)] }

/-- The run process keeps its identity fields and carries the clamped
remaining demand. -/
theorem runProcOf_fields (s : SimState) :
    (runProcOf s).remaining =
      max 0 ((selEntry s).2.remaining - runTimeOf s * (selFl s).ghz) ∧
    (runProcOf s).pid = (selEntry s).2.pid ∧
    (runProcOf s).arrival = (selEntry s).2.arrival ∧
    (runProcOf s).burst = (selEntry s).2.burst ∧
    (runProcOf s).start_time =
      (if (selEntry s).2.start_time < 0 then s.current_time
        else (selEntry s).2.start_time) ∧
    (runProcOf s).finish_time =
      (if max 0 ((selEntry s).2.remaining - runTimeOf s * (selFl s).ghz) ≤ eps then
        s.current_time + runTimeOf s else (selEntry s).2.finish_time) := by
  simp only [runProcOf]
  by_cases hst : (selEntry s).2.start_time < 0 <;>
    by_cases hfin : max 0 ((selEntry s).2.remaining - runTimeOf s * (selFl s).ghz) ≤ eps <;>
    simp [hst, hfin]

/-- The state produced by an idle iteration: accrue idle energy for the
interval up to the next arrival and jump the clock there. -/
def idleAdvance (s : SimState) (na : ℚ) : SimState :=
  { s with
    energy := s.energy + defaultPowerModel.idle_power * ((na - s.current_time) / 1000),
    current_time := na,
    events := s.events ++ [.idle (na - s.current_time)] }

/-- The busy branch of one loop iteration, including the degenerate
run_time ≤ 0 recovery and the two break checks at the bottom. -/
def busyStep (H : ℚ) (s : SimState) : StepOut :=
  if runTimeOf s ≤ 0 then ⟨{ s with current_time := runUntilOf s }, none⟩
  else
    let s2 := execState s
    if s2.procs.all (fun q => decide (q.remaining ≤ eps)) then ⟨s2, some .allDone⟩
    else if H < s2.current_time then ⟨s2, some .horizon⟩
    else ⟨s2, none⟩

/-- One iteration of the simulate_eadvfs while-loop over state `s` with
horizon `H` (the sim_end_ms argument). -/
def stepF (H : ℚ) (s : SimState) : StepOut :=
  if (readyOf s).isEmpty then
    if (nextArrival s.procs s.current_time).2 = false then ⟨s, some .idleDone⟩
    else ⟨idleAdvance s (nextArrival s.procs s.current_time).1, none⟩
  else busyStep H s

/-- Apply one more loop iteration unless a break already fired. -/
def advanceO (H : ℚ) (x : StepOut) : StepOut :=
  match x.stop with
  | some _ => x
  | none => stepF H x.state

/-- Run `n` loop iterations from state `s`. -/
def reach (H : ℚ) (s : SimState) : Nat → StepOut
  | 0 => ⟨s, none⟩
  | n+1 => advanceO H (reach H s n)

/-- Mirrors Simulator::load_processes: ids 1,2,... in input order. -/
def load_processes (list : List (ℚ × ℚ)) : List Process :=
  list.enum.map (fun ip => mkProcess ((ip.1 : Int) + 1) ip.2.1 ip.2.2)

/-- A freshly constructed Simulator: empty procs, zero clock, energy and
busy time, empty gantt. -/
def initSim : SimState := ⟨[], 0, 0, 0, [], []⟩

/-- Install a job list into a simulator (procs are rebuilt; gantt is
untouched, as in the source). -/
def loadState (jobs : List (ℚ × ℚ)) (s : SimState) : SimState :=
  { s with procs := load_processes jobs }

/-- Mirrors the reset block at the top of simulate_eadvfs: energy, busy
time and clock to zero, every process back to its initial runtime fields.
The gantt log is NOT cleared (faithful to the source); the ghost event log
is cleared together with energy, which it instruments. -/
def resetForRun (s : SimState) : SimState :=
  { s with
    energy := 0, busy_time := 0, current_time := 0,
    procs := s.procs.map (fun p =>
      { p with remaining := p.burst, start_time := -1, finish_time := -1 }),
    events := [] }

/-- Mirrors print_stats_and_gantt: makespan = max over finish times,
starting from 0. -/
def makespan (procs : List Process) : ℚ :=
  procs.foldl (fun m p => max m p.finish_time) 0

/-- Mirrors print_stats_and_gantt: CPU utilization percentage
busy_time / max(1, makespan) × 100. -/
def cpu_util (s : SimState) : ℚ :=
  s.busy_time / max 1 (makespan s.procs) * 100

/-- Default process used with List.getD. -/
def dummyProcess : Process := mkProcess 0 0 0

/-!  Specification of the SRTF scan. -/

/-- Full characterization of the SRTF scan helper: either no element of `l`
beats `best` (and the accumulator index is returned, with `best` a lower
bound on all of `l`), or the result points at the first element of `l`
attaining the minimum, which is strictly below `best` and strictly below
every earlier element of `l`. -/
theorem pick_next_aux_spec (l : List Process) : ∀ (i idx : Nat) (best : ℚ),
    (pick_next_aux l i best idx = idx ∧
      ∀ m : Nat, m < l.length → best ≤ (l.getD m dummyProcess).remaining) ∨
    (∃ m : Nat, m < l.length ∧
      pick_next_aux l i best idx = i + m ∧
      (l.getD m dummyProcess).remaining < best ∧
      (∀ m2 : Nat, m2 < l.length →
        (l.getD m dummyProcess).remaining ≤ (l.getD m2 dummyProcess).remaining) ∧
      (∀ m2 : Nat, m2 < l.length → m2 < m →
        (l.getD m dummyProcess).remaining < (l.getD m2 dummyProcess).remaining)) := by
  induction l with
  | nil =>
    intro i idx best
    left
    refine ⟨rfl, ?_⟩
    intro m hm
    simp at hm
  | cons p rest ih =>
    intro i idx best
    by_cases hp : p.remaining < best
    · rcases ih (i+1) i p.remaining with ⟨heq, hall⟩ | ⟨m, hm, heq, hlt, hle, hstrict⟩
      · right
        refine ⟨0, by simp, ?_, ?_, ?_, ?_⟩
        · simp [pick_next_aux, hp, heq]
        · simpa using hp
        · intro m2 hm2
          match m2 with
          | 0 => exact le_refl _
          | k+1 =>
            simp only [List.getD_cons_zero, List.getD_cons_succ]
            exact hall k (by simpa using hm2)
        · intro m2 _ hm2
          exact absurd hm2 (Nat.not_lt_zero m2)
      · right
        refine ⟨m + 1, by simpa using hm, ?_, ?_, ?_, ?_⟩
        · simp only [pick_next_aux, if_pos hp, heq]
          omega
        · simp only [List.getD_cons_succ]
          exact lt_trans hlt hp
        · intro m2 hm2
          match m2 with
          | 0 =>
            simp only [List.getD_cons_zero, List.getD_cons_succ]
            exact le_of_lt hlt
          | k+1 =>
            simp only [List.getD_cons_succ]
            exact hle k (by simpa using hm2)
        · intro m2 hm2 hmlt
          match m2 with
          | 0 =>
            simp only [List.getD_cons_zero, List.getD_cons_succ]
            exact hlt
          | k+1 =>
            simp only [List.getD_cons_succ]
            exact hstrict k (by simpa using hm2) (by omega)
    · rcases ih (i+1) idx best with ⟨heq, hall⟩ | ⟨m, hm, heq, hlt, hle, hstrict⟩
      · left
        refine ⟨by simp [pick_next_aux, hp, heq], ?_⟩
        intro m hm
        match m with
        | 0 => simpa using le_of_not_lt hp
        | k+1 =>
          simp only [List.getD_cons_succ]
          exact hall k (by simpa using hm)
      · right
        refine ⟨m + 1, by simpa using hm, ?_, ?_, ?_, ?_⟩
        · simp only [pick_next_aux, if_neg hp, heq]
          omega
        · simp only [List.getD_cons_succ]
          exact hlt
        · intro m2 hm2
          match m2 with
          | 0 =>
            simp only [List.getD_cons_zero, List.getD_cons_succ]
            exact le_of_lt (lt_of_lt_of_le hlt (le_of_not_lt hp))
          | k+1 =>
            simp only [List.getD_cons_succ]
            exact hle k (by simpa using hm2)
        · intro m2 hm2 hmlt
          match m2 with
          | 0 =>
            simp only [List.getD_cons_zero, List.getD_cons_succ]
            exact lt_of_lt_of_le hlt (le_of_not_lt hp)
          | k+1 =>
            simp only [List.getD_cons_succ]
            exact hstrict k (by simpa using hm2) (by omega)

/-- Position bounds for the SRTF pick on a non-empty queue. -/
theorem pick_next_bounds (ready : List Process) (h : ready ≠ []) :
    0 ≤ pick_next_process_index ready ∧
    (pick_next_process_index ready).toNat < ready.length := by
  match ready with
  | [] => exact absurd rfl h
  | p0 :: rest =>
    rcases pick_next_aux_spec rest 1 0 p0.remaining with ⟨heq, _⟩ | ⟨m, hm, heq, _⟩
    · simp [pick_next_process_index, heq]
    · simp only [pick_next_process_index, heq]
      constructor
      · exact Int.ofNat_nonneg _
      · simp only [Int.toNat_ofNat, List.length_cons]
        omega

/-- C3, main content: the SRTF pick is the first position attaining the
minimum remaining demand. -/
theorem pick_next_is_first_min (ready : List Process) (h : ready ≠ []) :
    (∀ m : Nat, m < ready.length →
      (ready.getD (pick_next_process_index ready).toNat dummyProcess).remaining
        ≤ (ready.getD m dummyProcess).remaining) ∧
    (∀ m : Nat, m < (pick_next_process_index ready).toNat →
      (ready.getD (pick_next_process_index ready).toNat dummyProcess).remaining
        < (ready.getD m dummyProcess).remaining) := by
  match ready with
  | [] => exact absurd rfl h
  | p0 :: rest =>
    rcases pick_next_aux_spec rest 1 0 p0.remaining with
      ⟨heq, hall⟩ | ⟨m, hm, heq, hlt, hle, hstrict⟩
    · simp only [pick_next_process_index, heq]
      constructor
      · intro m hmlen
        match m with
        | 0 => simp
        | k+1 =>
          simp only [Int.toNat_ofNat, List.getD_cons_zero, List.getD_cons_succ]
          exact hall k (by simpa using hmlen)
      · intro m hmlt
        simp at hmlt
    · have hc : 1 + m = m + 1 := Nat.add_comm 1 m
      simp only [pick_next_process_index, heq, Int.toNat_ofNat, hc, List.getD_cons_succ]
      constructor
      · intro m2 hm2len
        match m2 with
        | 0 =>
          simp only [List.getD_cons_zero]
          exact le_of_lt hlt
        | k+1 =>
          simp only [List.getD_cons_succ]
          exact hle k (by simpa using hm2len)
      · intro m2 hm2lt
        match m2 with
        | 0 =>
          simp only [List.getD_cons_zero]
          exact hlt
        | k+1 =>
          simp only [List.getD_cons_succ]
          exact hstrict k (by omega) (by omega)

/-- C3: for every non-empty ready set, job selection returns a valid
position pointing at the ready job with the smallest remaining demand, and
on ties the first-encountered (lowest-position) job is selected: the chosen
job's remaining demand is ≤ every ready job's remaining demand, and
strictly smaller than that of every job at an earlier position. -/
theorem C3_srtf_selects_min_first (ready : List Process) (h : ready ≠ []) :
    0 ≤ pick_next_process_index ready ∧
    (pick_next_process_index ready).toNat < ready.length ∧
    (∀ m : Nat, m < ready.length →
      (ready.getD (pick_next_process_index ready).toNat dummyProcess).remaining
        ≤ (ready.getD m dummyProcess).remaining) ∧
    (∀ m : Nat, m < (pick_next_process_index ready).toNat →
      (ready.getD (pick_next_process_index ready).toNat dummyProcess).remaining
        < (ready.getD m dummyProcess).remaining) := by
  obtain ⟨h1, h2⟩ := pick_next_bounds ready h
  obtain ⟨h3, h4⟩ := pick_next_is_first_min ready h
  exact ⟨h1, h2, h3, h4⟩

/-- Witness for C3 at a concrete two-job tie: both jobs have remaining 20
and the scan returns position 0. -/
theorem C3_witness :
    ([mkProcess 1 0 20, mkProcess 2 0 20] : List Process) ≠ [] ∧
    (0 ≤ pick_next_process_index [mkProcess 1 0 20, mkProcess 2 0 20] ∧
    (pick_next_process_index [mkProcess 1 0 20, mkProcess 2 0 20]).toNat
      < ([mkProcess 1 0 20, mkProcess 2 0 20] : List Process).length ∧
    (∀ m : Nat, m < ([mkProcess 1 0 20, mkProcess 2 0 20] : List Process).length →
      (([mkProcess 1 0 20, mkProcess 2 0 20] : List Process).getD
          (pick_next_process_index [mkProcess 1 0 20, mkProcess 2 0 20]).toNat
          dummyProcess).remaining
        ≤ (([mkProcess 1 0 20, mkProcess 2 0 20] : List Process).getD m dummyProcess).remaining) ∧
    (∀ m : Nat, m < (pick_next_process_index [mkProcess 1 0 20, mkProcess 2 0 20]).toNat →
      (([mkProcess 1 0 20, mkProcess 2 0 20] : List Process).getD
          (pick_next_process_index [mkProcess 1 0 20, mkProcess 2 0 20]).toNat
          dummyProcess).remaining
        < (([mkProcess 1 0 20, mkProcess 2 0 20] : List Process).getD m dummyProcess).remaining)) :=
  ⟨by decide, C3_srtf_selects_min_first [mkProcess 1 0 20, mkProcess 2 0 20] (by decide)⟩

/-!  Frequency selection (C2). -/

/-- For a genuinely ready queue and a positive window, the source guard
(which clamps the window at 1 ms) and the spec guard (raw window) agree:
they can only differ when the window is below 1 ms, and then the total
remaining demand relevant to the difference is so small that every ready
job is short, making the first disjunct fire on both sides. -/
theorem util_guard_equiv (ready : List Process) (w : ℚ) (hne : ready ≠ [])
    (hw : 0 < w) (hready : ∀ p ∈ ready, eps < p.remaining) :
    (((ready.countP (fun pr => decide (pr.remaining ≤ short_threshold)) : ℚ)
        / (ready.length : ℚ) > 3/5 ∨
      min 1 ((ready.map Process.remaining).sum / max 1 w) > util_threshold) ↔
     ((ready.countP (fun pr => decide (pr.remaining ≤ short_threshold)) : ℚ)
        / (ready.length : ℚ) > 3/5 ∨
      min 1 ((ready.map Process.remaining).sum / w) > 3/5)) := by
  have hlen : (0 : ℚ) < (ready.length : ℚ) := by
    have : 0 < ready.length := List.length_pos.mpr hne
    exact_mod_cast this
  rcases le_or_lt 1 w with h1w | hw1
  · rw [max_eq_right h1w]
    rfl
  · rw [max_eq_left (le_of_lt hw1)]
    set sum := (ready.map Process.remaining).sum with hsum
    rcases le_or_lt sum (3/5) with hs | hs
    · -- every ready job is short, so the first disjunct holds outright
      have hnn : ∀ x ∈ ready.map Process.remaining, (0 : ℚ) ≤ x := by
        intro x hx
        obtain ⟨p, hp, rfl⟩ := List.mem_map.mp hx
        have := hready p hp
        have heps : (0 : ℚ) < eps := by norm_num [eps]
        linarith
      have hshort : ∀ p ∈ ready, p.remaining ≤ short_threshold := by
        intro p hp
        have hle : p.remaining ≤ sum :=
          List.single_le_sum hnn _ (List.mem_map.mpr ⟨p, hp, rfl⟩)
        have : (3/5 : ℚ) ≤ short_threshold := by norm_num [short_threshold]
        linarith
      have hcount : ready.countP (fun pr => decide (pr.remaining ≤ short_threshold))
          = ready.length := by
        rw [List.countP_eq_length]
        intro p hp
        exact decide_eq_true (hshort p hp)
      have hfrac : ((ready.countP (fun pr => decide (pr.remaining ≤ short_threshold)) : ℚ)
          / (ready.length : ℚ)) = 1 := by
        rw [hcount]
        exact div_self (ne_of_gt hlen)
      constructor
      · intro _
        left
        rw [hfrac]
        norm_num
      · intro _
        left
        rw [hfrac]
        norm_num
    · -- sum is large, so both utilization guards exceed the threshold
      have hcode : min 1 (sum / 1) > util_threshold := by
        rw [div_one]
        have h1 : (util_threshold : ℚ) < 1 := by norm_num [util_threshold]
        have h2 : util_threshold < sum := by
          have : (util_threshold : ℚ) = 3/5 := rfl
          linarith
        exact lt_min h1 h2
      have hspec : min 1 (sum / w) > 3/5 := by
        have hsw : sum < sum / w := by
          rw [lt_div_iff₀ hw]
          nlinarith
        have h2 : (3/5 : ℚ) < sum / w := lt_trans hs hsw
        exact lt_min (by norm_num) h2
      constructor
      · intro _
        right
        exact hspec
      · intro _
        right
        exact hcode

/-- C2 (amended to positive lookahead windows): on a non-empty ready set
the selector returns the highest index 2 exactly when the short fraction
exceeds 0.6 or the spec utilization proxy min(1, sum/window) exceeds 0.6;
otherwise it returns 0 exactly when the mean remaining demand exceeds
200 ms, and 1 in the remaining case.  Determinism is immediate since the
embedding is a pure function. -/
theorem C2_frequency_selection_spec (ready : List Process) (w : ℚ)
    (hne : ready ≠ []) (hw : 0 < w)
    (hready : ∀ p ∈ ready, eps < p.remaining) :
    (pick_frequency_index defaultPowerModel ready w = 2 ↔
      ((ready.countP (fun pr => decide (pr.remaining ≤ short_threshold)) : ℚ)
          / (ready.length : ℚ) > 3/5 ∨
        min 1 ((ready.map Process.remaining).sum / w) > 3/5)) ∧
    (pick_frequency_index defaultPowerModel ready w ≠ 2 →
      (pick_frequency_index defaultPowerModel ready w = 0 ↔
        (ready.map Process.remaining).sum / (ready.length : ℚ) > 200)) ∧
    (pick_frequency_index defaultPowerModel ready w ≠ 2 →
      pick_frequency_index defaultPowerModel ready w ≠ 0 →
      pick_frequency_index defaultPowerModel ready w = 1) := by
  have hemp : ready.isEmpty = false := by
    cases ready with
    | nil => exact absurd rfl hne
    | cons a l => rfl
  have hguard := util_guard_equiv ready w hne hw hready
  unfold pick_frequency_index
  rw [hemp]
  simp only [Bool.false_eq_true, if_false]
  by_cases hg : ((ready.countP (fun pr => decide (pr.remaining ≤ short_threshold)) : ℚ)
      / (ready.length : ℚ) > 3/5 ∨
    min 1 ((ready.map Process.remaining).sum / max 1 w) > util_threshold)
  · rw [if_pos hg]
    refine ⟨?_, ?_, ?_⟩
    · constructor
      · intro _
        exact hguard.mp hg
      · intro _
        norm_num [defaultPowerModel]
    · intro hne2
      exact absurd (by norm_num [defaultPowerModel]) hne2
    · intro hne2 _
      exact absurd (by norm_num [defaultPowerModel]) hne2
  · rw [if_neg hg]
    by_cases ha : (ready.map Process.remaining).sum / (ready.length : ℚ) > 200
    · rw [if_pos ha]
      refine ⟨?_, ?_, ?_⟩
      · constructor
        · intro h0
          norm_num at h0
        · intro hsp
          exact absurd (hguard.mpr hsp) hg
      · intro _
        exact ⟨fun _ => ha, fun _ => rfl⟩
      · intro _ h0
        exact absurd rfl h0
    · rw [if_neg ha]
      refine ⟨?_, ?_, ?_⟩
      · constructor
        · intro h1
          norm_num at h1
        · intro hsp
          exact absurd (hguard.mpr hsp) hg
      · intro _
        constructor
        · intro h1
          norm_num at h1
        · intro h200
          exact absurd h200 ha
      · intro _ _
        rfl

/-- The single-job ready queue used in the C2 counterexample and witness. -/
def c2ready : List Process := [mkProcess 1 0 100]

/-- Counterexample to C2 as stated: with the (physically meaningless but
syntactically allowed) lookahead window −1 and a single ready job of
remaining demand 100, the source clamps the window denominator to 1 and
picks the highest index 2, while the formula of the claim
(min(1, sum/window) = −100 ≤ 0.6, short fraction 0, mean 100 ≤ 200)
prescribes the middle index 1. -/
theorem C2_counterexample :
    pick_frequency_index defaultPowerModel c2ready (-1) = 2 ∧
    ¬(((c2ready.countP (fun pr => decide (pr.remaining ≤ short_threshold)) : ℚ)
        / (c2ready.length : ℚ) > 3/5) ∨
      min 1 ((c2ready.map Process.remaining).sum / (-1)) > 3/5) := by
  constructor
  · norm_num [pick_frequency_index, c2ready, mkProcess, short_threshold, util_threshold,
      defaultPowerModel]
  · intro h
    rcases h with h | h
    · norm_num [c2ready, short_threshold, mkProcess] at h
    · norm_num [c2ready, mkProcess] at h

/-- Witness for C2 at a single ready job of remaining demand 100 and the
engine's 200 ms window: the hypotheses hold and the characterization
applies (the selector returns the middle index there). -/
theorem C2_witness :
    (c2ready ≠ [] ∧ (0 : ℚ) < 200 ∧ (∀ p ∈ c2ready, eps < p.remaining)) ∧
    ((pick_frequency_index defaultPowerModel c2ready 200 = 2 ↔
      ((c2ready.countP (fun pr => decide (pr.remaining ≤ short_threshold)) : ℚ)
          / (c2ready.length : ℚ) > 3/5 ∨
        min 1 ((c2ready.map Process.remaining).sum / 200) > 3/5)) ∧
    (pick_frequency_index defaultPowerModel c2ready 200 ≠ 2 →
      (pick_frequency_index defaultPowerModel c2ready 200 = 0 ↔
        (c2ready.map Process.remaining).sum / (c2ready.length : ℚ) > 200)) ∧
    (pick_frequency_index defaultPowerModel c2ready 200 ≠ 2 →
      pick_frequency_index defaultPowerModel c2ready 200 ≠ 0 →
      pick_frequency_index defaultPowerModel c2ready 200 = 1)) :=
  ⟨⟨by norm_num [c2ready], by norm_num,
      by norm_num [c2ready, eps, mkProcess]⟩,
    C2_frequency_selection_spec c2ready 200
      (by norm_num [c2ready]) (by norm_num)
      (by norm_num [c2ready, eps, mkProcess])⟩

/-!  Properties of the next-arrival scan. -/

/-- Once the found-flag is set it stays set. -/
theorem nextArrAux_flag_mono (t : ℚ) (l : List Process) :
    ∀ acc : ℚ × Bool, acc.2 = true → (nextArrAux t l acc).2 = true := by
  induction l with
  | nil => intro acc h; exact h
  | cons q rest ih =>
    intro acc h
    simp only [nextArrAux]
    by_cases hc : t < q.arrival ∧ q.arrival < acc.1
    · rw [if_pos hc]
      exact ih _ rfl
    · rw [if_neg hc]
      exact ih _ h

/-- The running value of the next-arrival scan never increases. -/
theorem nextArrAux_le_acc (t : ℚ) (l : List Process) :
    ∀ acc : ℚ × Bool, (nextArrAux t l acc).1 ≤ acc.1 := by
  induction l with
  | nil => intro acc; exact le_refl _
  | cons q rest ih =>
    intro acc
    simp only [nextArrAux]
    by_cases hc : t < q.arrival ∧ q.arrival < acc.1
    · rw [if_pos hc]
      exact le_of_lt (lt_of_le_of_lt (ih _) hc.2)
    · rw [if_neg hc]
      exact ih _

/-- The next-arrival scan result is a lower bound on every arrival strictly
after `t`. -/
theorem nextArrAux_min (t : ℚ) (l : List Process) :
    ∀ acc : ℚ × Bool, ∀ p ∈ l, t < p.arrival → (nextArrAux t l acc).1 ≤ p.arrival := by
  induction l with
  | nil => intro acc p hp; exact absurd hp (List.not_mem_nil p)
  | cons q rest ih =>
    intro acc p hp ht
    rcases List.mem_cons.mp hp with rfl | hp2
    · simp only [nextArrAux]
      by_cases hc : t < p.arrival ∧ p.arrival < acc.1
      · rw [if_pos hc]
        exact nextArrAux_le_acc t rest _
      · rw [if_neg hc]
        have : acc.1 ≤ p.arrival := by
          by_contra hlt
          exact hc ⟨ht, lt_of_not_le hlt⟩
        exact le_trans (nextArrAux_le_acc t rest _) this
    · simp only [nextArrAux]
      by_cases hc : t < q.arrival ∧ q.arrival < acc.1
      · rw [if_pos hc]; exact ih _ p hp2 ht
      · rw [if_neg hc]; exact ih _ p hp2 ht

/-- Either the next-arrival scan leaves the accumulator untouched, or it
returns a genuine arrival strictly after `t` and strictly below the
initial running value, with the flag set. -/
theorem nextArrAux_cases (t : ℚ) (l : List Process) :
    ∀ acc : ℚ × Bool, nextArrAux t l acc = acc ∨
      ((nextArrAux t l acc).2 = true ∧ (nextArrAux t l acc).1 < acc.1 ∧
        ∃ p ∈ l, (nextArrAux t l acc).1 = p.arrival ∧ t < p.arrival) := by
  induction l with
  | nil => intro acc; left; rfl
  | cons q rest ih =>
    intro acc
    simp only [nextArrAux]
    by_cases hc : t < q.arrival ∧ q.arrival < acc.1
    · rw [if_pos hc]
      right
      rcases ih (q.arrival, true) with heq | ⟨hf, hlt, p, hp, hv, ht⟩
      · rw [heq]
        exact ⟨rfl, hc.2, q, List.mem_cons_self q rest, rfl, hc.1⟩
      · exact ⟨hf, lt_trans hlt hc.2, p, List.mem_cons_of_mem q hp, hv, ht⟩
    · rw [if_neg hc]
      rcases ih acc with heq | ⟨hf, hlt, p, hp, hv, ht⟩
      · left; exact heq
      · right; exact ⟨hf, hlt, p, List.mem_cons_of_mem q hp, hv, ht⟩

/-- If the found-flag comes back unset then no arrival lies strictly
between `t` and the initial running value. -/
theorem nextArrAux_false (t : ℚ) (l : List Process) :
    ∀ v : ℚ, (nextArrAux t l (v, false)).2 = false →
      ∀ p ∈ l, ¬(t < p.arrival ∧ p.arrival < v) := by
  induction l with
  | nil => intro v _ p hp; exact absurd hp (List.not_mem_nil p)
  | cons q rest ih =>
    intro v hfalse p hp
    simp only [nextArrAux] at hfalse
    by_cases hc : t < q.arrival ∧ q.arrival < v
    · rw [if_pos hc] at hfalse
      have := nextArrAux_flag_mono t rest (q.arrival, true) rfl
      rw [hfalse] at this
      exact absurd this (by simp)
    · rw [if_neg hc] at hfalse
      rcases List.mem_cons.mp hp with rfl | hp2
      · exact hc
      · exact ih v hfalse p hp2

/-!  Properties of the next-event scan of the busy branch. -/

/-- The next-event value never exceeds its starting value. -/
theorem nextEvAux_le_acc (t : ℚ) (l : List Process) :
    ∀ v : ℚ, nextEvAux t l v ≤ v := by
  induction l with
  | nil => intro v; exact le_refl _
  | cons q rest ih =>
    intro v
    simp only [nextEvAux]
    by_cases hc : t < q.arrival
    · rw [if_pos hc]
      exact le_trans (ih _) (min_le_left _ _)
    · rw [if_neg hc]
      exact ih _

/-- The next-event value is a lower bound on every arrival strictly after
`t`. -/
theorem nextEvAux_min (t : ℚ) (l : List Process) :
    ∀ v : ℚ, ∀ p ∈ l, t < p.arrival → nextEvAux t l v ≤ p.arrival := by
  induction l with
  | nil => intro v p hp; exact absurd hp (List.not_mem_nil p)
  | cons q rest ih =>
    intro v p hp ht
    rcases List.mem_cons.mp hp with rfl | hp2
    · simp only [nextEvAux, if_pos ht]
      exact le_trans (nextEvAux_le_acc t rest _) (min_le_right _ _)
    · simp only [nextEvAux]
      by_cases hc : t < q.arrival
      · rw [if_pos hc]; exact ih _ p hp2 ht
      · rw [if_neg hc]; exact ih _ p hp2 ht

/-- The next-event value is either the starting value or a genuine arrival
strictly after `t`. -/
theorem nextEvAux_cases (t : ℚ) (l : List Process) :
    ∀ v : ℚ, nextEvAux t l v = v ∨
      ∃ p ∈ l, nextEvAux t l v = p.arrival ∧ t < p.arrival := by
  induction l with
  | nil => intro v; left; rfl
  | cons q rest ih =>
    intro v
    simp only [nextEvAux]
    by_cases hc : t < q.arrival
    · rw [if_pos hc]
      rcases ih (min v q.arrival) with heq | ⟨p, hp, hv, ht⟩
      · rcases min_cases v q.arrival with ⟨hm, _⟩ | ⟨hm, _⟩
        · left; rw [heq, hm]
        · right
          exact ⟨q, List.mem_cons_self q rest, by rw [heq, hm], hc⟩
      · right; exact ⟨p, List.mem_cons_of_mem q hp, hv, ht⟩
    · rw [if_neg hc]
      rcases ih v with heq | ⟨p, hp, hv, ht⟩
      · left; exact heq
      · right; exact ⟨p, List.mem_cons_of_mem q hp, hv, ht⟩

/-- The next-event value is strictly after `t` whenever the starting value
is. -/
theorem nextEvent_gt (procs : List Process) (t : ℚ) (ht : t < SENTINEL) :
    t < nextEvent procs t := by
  rcases nextEvAux_cases t procs SENTINEL with heq | ⟨p, _, hv, harr⟩
  · rw [nextEvent, heq]; exact ht
  · rw [nextEvent, hv]; exact harr

/-!  Claim C4: the idle branch. -/

/-- C4 (amended for the 1e18 sentinel): in every iteration with an empty
ready set, if no job arrives strictly after the clock and below the 10^18
sentinel the run terminates with the state untouched; otherwise the
iteration adds exactly idle_power × (next_arrival − clock)/1000 Joules,
jumps the clock to the earliest arrival in that range, and leaves the
processes, busy time and gantt log unchanged.  The t = 300 ms scenario is
included: idle energy over [0, 300) is exactly idle_power × 0.3 = 3/50 J
and the timeline stays empty. -/
theorem C4_idle_frame (H : ℚ) (s : SimState) (hready : readyOf s = []) :
    ((∀ p ∈ s.procs, ¬(s.current_time < p.arrival ∧ p.arrival < SENTINEL)) →
      stepF H s = ⟨s, some .idleDone⟩) ∧
    (∀ p0 ∈ s.procs, s.current_time < p0.arrival → p0.arrival < SENTINEL →
      (stepF H s).stop = none ∧
      (stepF H s).state.procs = s.procs ∧
      (stepF H s).state.busy_time = s.busy_time ∧
      (stepF H s).state.gantt = s.gantt ∧
      (stepF H s).state.current_time = (nextArrival s.procs s.current_time).1 ∧
      (stepF H s).state.energy = s.energy + defaultPowerModel.idle_power *
        (((nextArrival s.procs s.current_time).1 - s.current_time) / 1000) ∧
      s.current_time < (nextArrival s.procs s.current_time).1 ∧
      (∃ q ∈ s.procs, (nextArrival s.procs s.current_time).1 = q.arrival) ∧
      (∀ q ∈ s.procs, s.current_time < q.arrival →
        (nextArrival s.procs s.current_time).1 ≤ q.arrival)) ∧
    ((reach 100000 (resetForRun (loadState [(300, 50)] initSim)) 1).state =
        ⟨[mkProcess 1 300 50], 300, 3/50, 0, [], [.idle 300]⟩ ∧
      (3/50 : ℚ) = defaultPowerModel.idle_power * (300/1000)) := by
  have hempty : (readyOf s).isEmpty = true := by
    rw [hready]; rfl
  refine ⟨?_, ?_, ?_⟩
  · intro hnone
    have hflag : (nextArrival s.procs s.current_time).2 = false := by
      rcases nextArrAux_cases s.current_time s.procs (SENTINEL, false) with
        heq | ⟨hf, hlt, p, hp, hv, ht⟩
      · rw [nextArrival, heq]
      · exact absurd ⟨ht, hv ▸ hlt⟩ (hnone p hp)
    simp [stepF, hempty, hflag]
  · intro p0 hp0 ht0 hs0
    have hflag : (nextArrival s.procs s.current_time).2 = true := by
      cases hft : (nextArrival s.procs s.current_time).2 with
      | true => rfl
      | false =>
        have := nextArrAux_false s.current_time s.procs SENTINEL hft p0 hp0
        exact absurd ⟨ht0, hs0⟩ this
    have hstep : stepF H s = ⟨idleAdvance s (nextArrival s.procs s.current_time).1, none⟩ := by
      simp [stepF, hempty, hflag]
    have hgt : s.current_time < (nextArrival s.procs s.current_time).1 := by
      rcases nextArrAux_cases s.current_time s.procs (SENTINEL, false) with
        heq | ⟨hf, hlt, p, hp, hv, ht⟩
      · exfalso
        have : (nextArrival s.procs s.current_time).2 = false := by
          rw [nextArrival, heq]
        rw [hflag] at this
        exact absurd this (by simp)
      · rw [nextArrival, hv]
        exact ht
    refine ⟨?_, ?_, ?_, ?_, ?_, ?_, hgt, ?_, ?_⟩
    · rw [hstep]
    · rw [hstep]; rfl
    · rw [hstep]; rfl
    · rw [hstep]; rfl
    · rw [hstep]; rfl
    · rw [hstep]; rfl
    · rcases nextArrAux_cases s.current_time s.procs (SENTINEL, false) with
        heq | ⟨hf, hlt, p, hp, hv, ht⟩
      · exfalso
        have : (nextArrival s.procs s.current_time).2 = false := by
          rw [nextArrival, heq]
        rw [hflag] at this
        exact absurd this (by simp)
      · exact ⟨p, hp, hv⟩
    · intro q hq hqt
      exact nextArrAux_min s.current_time s.procs (SENTINEL, false) q hq hqt
  · constructor
    · norm_num [reach, advanceO, stepF, resetForRun, loadState, initSim, load_processes,
        readyOf, readyAux, nextArrival, nextArrAux, SENTINEL, eps, mkProcess, idleAdvance,
        defaultPowerModel]
    · norm_num [defaultPowerModel]

/-- Counterexample to C4 as stated: a single job arriving at 10^18 ms has
an arrival strictly after the zero clock, yet the loop terminates
immediately (the sentinel comparison hides the arrival) instead of
accruing idle energy and advancing the clock to it. -/
theorem C4_counterexample :
    (∃ p ∈ (resetForRun (loadState [(10^18, 100)] initSim)).procs,
      (resetForRun (loadState [(10^18, 100)] initSim)).current_time < p.arrival) ∧
    stepF 100000 (resetForRun (loadState [(10^18, 100)] initSim)) =
      ⟨resetForRun (loadState [(10^18, 100)] initSim), some .idleDone⟩ := by
  constructor
  · refine ⟨mkProcess 1 (10^18) 100, ?_, ?_⟩
    · norm_num [resetForRun, loadState, initSim, load_processes, mkProcess]
    · norm_num [resetForRun, loadState, initSim, mkProcess]
  · norm_num [stepF, resetForRun, loadState, initSim, load_processes, readyOf, readyAux,
      nextArrival, nextArrAux, SENTINEL, eps, mkProcess]

/-- Witness for C4 at the job set with a single arrival at 300 ms: the
ready set is empty at clock 0 and the characterization applies. -/
theorem C4_witness :
    readyOf (resetForRun (loadState [(300, 50)] initSim)) = [] ∧
    (((∀ p ∈ (resetForRun (loadState [(300, 50)] initSim)).procs,
        ¬((resetForRun (loadState [(300, 50)] initSim)).current_time < p.arrival ∧
          p.arrival < SENTINEL)) →
      stepF 100000 (resetForRun (loadState [(300, 50)] initSim)) =
        ⟨resetForRun (loadState [(300, 50)] initSim), some .idleDone⟩) ∧
    (∀ p0 ∈ (resetForRun (loadState [(300, 50)] initSim)).procs,
      (resetForRun (loadState [(300, 50)] initSim)).current_time < p0.arrival →
      p0.arrival < SENTINEL →
      (stepF 100000 (resetForRun (loadState [(300, 50)] initSim))).stop = none ∧
      (stepF 100000 (resetForRun (loadState [(300, 50)] initSim))).state.procs =
        (resetForRun (loadState [(300, 50)] initSim)).procs ∧
      (stepF 100000 (resetForRun (loadState [(300, 50)] initSim))).state.busy_time =
        (resetForRun (loadState [(300, 50)] initSim)).busy_time ∧
      (stepF 100000 (resetForRun (loadState [(300, 50)] initSim))).state.gantt =
        (resetForRun (loadState [(300, 50)] initSim)).gantt ∧
      (stepF 100000 (resetForRun (loadState [(300, 50)] initSim))).state.current_time =
        (nextArrival (resetForRun (loadState [(300, 50)] initSim)).procs
          (resetForRun (loadState [(300, 50)] initSim)).current_time).1 ∧
      (stepF 100000 (resetForRun (loadState [(300, 50)] initSim))).state.energy =
        (resetForRun (loadState [(300, 50)] initSim)).energy +
          defaultPowerModel.idle_power *
          (((nextArrival (resetForRun (loadState [(300, 50)] initSim)).procs
              (resetForRun (loadState [(300, 50)] initSim)).current_time).1 -
            (resetForRun (loadState [(300, 50)] initSim)).current_time) / 1000) ∧
      (resetForRun (loadState [(300, 50)] initSim)).current_time <
        (nextArrival (resetForRun (loadState [(300, 50)] initSim)).procs
          (resetForRun (loadState [(300, 50)] initSim)).current_time).1 ∧
      (∃ q ∈ (resetForRun (loadState [(300, 50)] initSim)).procs,
        (nextArrival (resetForRun (loadState [(300, 50)] initSim)).procs
          (resetForRun (loadState [(300, 50)] initSim)).current_time).1 = q.arrival) ∧
      (∀ q ∈ (resetForRun (loadState [(300, 50)] initSim)).procs,
        (resetForRun (loadState [(300, 50)] initSim)).current_time < q.arrival →
        (nextArrival (resetForRun (loadState [(300, 50)] initSim)).procs
          (resetForRun (loadState [(300, 50)] initSim)).current_time).1 ≤ q.arrival)) ∧
    ((reach 100000 (resetForRun (loadState [(300, 50)] initSim)) 1).state =
        ⟨[mkProcess 1 300 50], 300, 3/50, 0, [], [.idle 300]⟩ ∧
      (3/50 : ℚ) = defaultPowerModel.idle_power * (300/1000))) :=
  ⟨by norm_num [readyOf, readyAux, resetForRun, loadState, initSim, load_processes,
      eps, mkProcess],
    C4_idle_frame 100000 (resetForRun (loadState [(300, 50)] initSim))
      (by norm_num [readyOf, readyAux, resetForRun, loadState, initSim, load_processes,
        eps, mkProcess])⟩

/-!  Claim C1: the busy branch. -/

/-- The sequential clipping of run_until in the source equals the
three-way minimum of completion time, next event time and quantum cap. -/
theorem runUntil_eq_min3 (s : SimState) :
    runUntilOf s =
      min (min (s.current_time + (selEntry s).2.remaining / (selFl s).ghz)
            (nextEvent s.procs s.current_time))
          (s.current_time + 50) := by
  simp only [runUntilOf]
  set c := s.current_time
  set comp := c + (selEntry s).2.remaining / (selFl s).ghz with hcomp
  set ne := nextEvent s.procs c
  by_cases h1 : ne < comp
  · rw [if_pos h1, min_comm comp ne, min_eq_left (le_of_lt h1)]
    by_cases h2 : ne - c > 50
    · rw [if_pos h2, min_eq_right]
      linarith
    · rw [if_neg h2, min_eq_left]
      push_neg at h2
      linarith
  · rw [if_neg h1, min_comm comp ne, min_eq_right (le_of_not_lt h1)]
    by_cases h2 : comp - c > 50
    · rw [if_pos h2, min_eq_right]
      linarith
    · rw [if_neg h2, min_eq_left]
      push_neg at h2
      linarith

/-- When the busy branch executes (positive run time), the iteration result
state is execState. -/
theorem stepF_state_of_pos (H : ℚ) (s : SimState) (hready : readyOf s ≠ [])
    (hd : 0 < runTimeOf s) : (stepF H s).state = execState s := by
  have hne : (readyOf s).isEmpty = false := by
    cases h : readyOf s with
    | nil => exact absurd h hready
    | cons a l => rfl
  simp only [stepF, hne, Bool.false_eq_true, if_false, busyStep,
    if_neg (not_le.mpr hd)]
  split
  · rfl
  · split
    · rfl
    · rfl

/-- C1 (amended for the 1e18 sentinel): in every busy iteration, the run
interval end produced by the engine is the minimum of (a) clock +
remaining/speed, (b) the next event time — the earliest arrival strictly
after the clock, clipped at the 10^18 ms sentinel and equal to the
sentinel when no such arrival exists — and (c) clock + the 50 ms quantum;
and when the resulting duration d is positive the engine reduces the
selected job's remaining demand by d × speed clamped at 0, adds
power × d/1000 to energy, adds d to busy time, merge-appends (pid, d) to
the timeline, and advances the clock by exactly d. -/
theorem C1_busy_iteration (H : ℚ) (s : SimState) (hready : readyOf s ≠ []) :
    runUntilOf s =
      min (min (s.current_time + (selEntry s).2.remaining / (selFl s).ghz)
            (nextEvent s.procs s.current_time))
          (s.current_time + 50) ∧
    nextEvent s.procs s.current_time ≤ SENTINEL ∧
    (∀ q ∈ s.procs, s.current_time < q.arrival →
      nextEvent s.procs s.current_time ≤ q.arrival) ∧
    (nextEvent s.procs s.current_time = SENTINEL ∨
      ∃ q ∈ s.procs, nextEvent s.procs s.current_time = q.arrival ∧
        s.current_time < q.arrival) ∧
    (0 < runTimeOf s →
      ((stepF H s).state.current_time = s.current_time + runTimeOf s ∧
       (stepF H s).state.energy = s.energy + (selFl s).power * (runTimeOf s / 1000) ∧
       (stepF H s).state.busy_time = s.busy_time + runTimeOf s ∧
       (stepF H s).state.gantt = ganttAppend s.gantt (selEntry s).2.pid (runTimeOf s) ∧
       ∃ q : Process,
         (stepF H s).state.procs = s.procs.set (selEntry s).1 q ∧
         q.remaining = max 0 ((selEntry s).2.remaining - runTimeOf s * (selFl s).ghz) ∧
         q.pid = (selEntry s).2.pid ∧ q.arrival = (selEntry s).2.arrival ∧
         q.burst = (selEntry s).2.burst)) := by
  refine ⟨runUntil_eq_min3 s, nextEvAux_le_acc _ _ _,
    fun q hq ht => nextEvAux_min _ _ _ q hq ht, nextEvAux_cases _ _ _, ?_⟩
  intro hd
  rw [stepF_state_of_pos H s hready hd]
  obtain ⟨hrem, hpid, harr, hburst, _, _⟩ := runProcOf_fields s
  exact ⟨rfl, rfl, rfl, rfl, runProcOf s, rfl, hrem, hpid, harr, hburst⟩

/-- The concrete mid-run state of the C1 counterexample: one ready job
with remaining 100 at clock 10^18 − 10, and one future arrival at
2 × 10^18 (beyond the sentinel). -/
def c1s : SimState :=
  ⟨[⟨1, 0, 200, 100, 5, -1⟩, ⟨2, 2 * 10^18, 10, 10, -1, -1⟩],
    10^18 - 10, 0, 0, [], []⟩

/-- Counterexample to C1 as stated: at c1s the only arrival strictly after
the clock is 2 × 10^18, so the claimed run interval end
min(clock + 100/1.5, 2 × 10^18, clock + 50) is clock + 50, yet the engine
(whose next-event scan starts at the 10^18 sentinel) runs for only 10 ms
and advances the clock to 10^18. -/
theorem C1_counterexample :
    readyOf c1s = [(0, ⟨1, 0, 200, 100, 5, -1⟩)] ∧
    (selEntry c1s).2.remaining = 100 ∧
    (selFl c1s).ghz = 3/2 ∧
    (∀ q ∈ c1s.procs, c1s.current_time < q.arrival → q.arrival = 2 * 10^18) ∧
    min (min (c1s.current_time + 100 / (3/2 : ℚ)) (2 * 10^18))
        (c1s.current_time + 50) - c1s.current_time = 50 ∧
    (stepF 100000 c1s).state.current_time = 10^18 ∧
    (10^18 : ℚ) - c1s.current_time = 10 ∧
    (10 : ℚ) ≠ 50 := by
  refine ⟨?_, ?_, ?_, ?_, ?_, ?_, ?_, by norm_num⟩
  · norm_num [readyOf, readyAux, c1s, eps]
  · norm_num [selEntry, readyOf, readyAux, c1s, eps, pick_next_process_index,
      pick_next_aux]
  · norm_num [selFl, selFi, chosenFi, pick_frequency_index, readyOf, readyAux, c1s, eps,
      short_threshold, util_threshold, defaultPowerModel, defaultFL]
  · intro q hq
    simp only [c1s, List.mem_cons, List.mem_singleton] at hq
    rcases hq with rfl | rfl | h
    · intro h2; norm_num [c1s] at h2
    · intro _; rfl
    · exact absurd h (List.not_mem_nil q)
  · have h1 : c1s.current_time + 100 / (3/2 : ℚ) ≤ 2 * 10^18 := by
      norm_num [c1s]
    have h2 : c1s.current_time + 50 ≤ c1s.current_time + 100 / (3/2 : ℚ) := by
      norm_num [c1s]
    rw [min_eq_left h1, min_eq_right h2]
    ring
  · norm_num [stepF, readyOf, readyAux, c1s, eps, busyStep, runTimeOf, runUntilOf,
      selFl, selFi, chosenFi, pick_frequency_index, short_threshold, util_threshold,
      selEntry, pick_next_process_index, pick_next_aux, nextEvent, nextEvAux, SENTINEL,
      execState, ganttAppend, defaultPowerModel, defaultFL]
  · norm_num [c1s]

/-- Witness for C1 at the single-job state: one job (arrival 0, burst 100)
at clock 0 is ready and the first quantum runs for 50 ms. -/
theorem C1_witness :
    readyOf (resetForRun (loadState [(0, 100)] initSim)) ≠ [] ∧
    (runUntilOf (resetForRun (loadState [(0, 100)] initSim)) =
      min (min ((resetForRun (loadState [(0, 100)] initSim)).current_time +
            (selEntry (resetForRun (loadState [(0, 100)] initSim))).2.remaining /
              (selFl (resetForRun (loadState [(0, 100)] initSim))).ghz)
            (nextEvent (resetForRun (loadState [(0, 100)] initSim)).procs
              (resetForRun (loadState [(0, 100)] initSim)).current_time))
          ((resetForRun (loadState [(0, 100)] initSim)).current_time + 50) ∧
    nextEvent (resetForRun (loadState [(0, 100)] initSim)).procs
        (resetForRun (loadState [(0, 100)] initSim)).current_time ≤ SENTINEL ∧
    (∀ q ∈ (resetForRun (loadState [(0, 100)] initSim)).procs,
      (resetForRun (loadState [(0, 100)] initSim)).current_time < q.arrival →
      nextEvent (resetForRun (loadState [(0, 100)] initSim)).procs
        (resetForRun (loadState [(0, 100)] initSim)).current_time ≤ q.arrival) ∧
    (nextEvent (resetForRun (loadState [(0, 100)] initSim)).procs
        (resetForRun (loadState [(0, 100)] initSim)).current_time = SENTINEL ∨
      ∃ q ∈ (resetForRun (loadState [(0, 100)] initSim)).procs,
        nextEvent (resetForRun (loadState [(0, 100)] initSim)).procs
          (resetForRun (loadState [(0, 100)] initSim)).current_time = q.arrival ∧
        (resetForRun (loadState [(0, 100)] initSim)).current_time < q.arrival) ∧
    (0 < runTimeOf (resetForRun (loadState [(0, 100)] initSim)) →
      ((stepF 100000 (resetForRun (loadState [(0, 100)] initSim))).state.current_time =
        (resetForRun (loadState [(0, 100)] initSim)).current_time +
          runTimeOf (resetForRun (loadState [(0, 100)] initSim)) ∧
       (stepF 100000 (resetForRun (loadState [(0, 100)] initSim))).state.energy =
        (resetForRun (loadState [(0, 100)] initSim)).energy +
          (selFl (resetForRun (loadState [(0, 100)] initSim))).power *
            (runTimeOf (resetForRun (loadState [(0, 100)] initSim)) / 1000) ∧
       (stepF 100000 (resetForRun (loadState [(0, 100)] initSim))).state.busy_time =
        (resetForRun (loadState [(0, 100)] initSim)).busy_time +
          runTimeOf (resetForRun (loadState [(0, 100)] initSim)) ∧
       (stepF 100000 (resetForRun (loadState [(0, 100)] initSim))).state.gantt =
        ganttAppend (resetForRun (loadState [(0, 100)] initSim)).gantt
          (selEntry (resetForRun (loadState [(0, 100)] initSim))).2.pid
          (runTimeOf (resetForRun (loadState [(0, 100)] initSim))) ∧
       ∃ q : Process,
         (stepF 100000 (resetForRun (loadState [(0, 100)] initSim))).state.procs =
           (resetForRun (loadState [(0, 100)] initSim)).procs.set
             (selEntry (resetForRun (loadState [(0, 100)] initSim))).1 q ∧
         q.remaining = max 0
           ((selEntry (resetForRun (loadState [(0, 100)] initSim))).2.remaining -
             runTimeOf (resetForRun (loadState [(0, 100)] initSim)) *
               (selFl (resetForRun (loadState [(0, 100)] initSim))).ghz) ∧
         q.pid = (selEntry (resetForRun (loadState [(0, 100)] initSim))).2.pid ∧
         q.arrival = (selEntry (resetForRun (loadState [(0, 100)] initSim))).2.arrival ∧
         q.burst = (selEntry (resetForRun (loadState [(0, 100)] initSim))).2.burst))) :=
  ⟨by norm_num [readyOf, readyAux, resetForRun, loadState, initSim, load_processes,
      eps, mkProcess],
    C1_busy_iteration 100000 (resetForRun (loadState [(0, 100)] initSim))
      (by norm_num [readyOf, readyAux, resetForRun, loadState, initSim, load_processes,
        eps, mkProcess])⟩

/-!  Claim C8: re-running the simulation on the same simulator. -/

/-- First iteration of the single-job run (fresh gantt): 50 ms at the
medium level. -/
theorem c8_step1 :
    stepF 100000 ⟨[⟨1, 0, 100, 100, -1, -1⟩], 0, 0, 0, [], []⟩ =
      ⟨⟨[⟨1, 0, 100, 25, 0, -1⟩], 50, 13/100, 50, [(1, 50)], [.run 1 50 1]⟩, none⟩ := by
  norm_num [stepF, readyOf, readyAux, nextArrival, nextArrAux, nextEvent, nextEvAux,
    SENTINEL, eps, busyStep, runTimeOf, runUntilOf, selFl, selFi, selEntry, chosenFi,
    pick_frequency_index, short_threshold, util_threshold, pick_next_process_index,
    pick_next_aux, execState, runProcOf, ganttAppend, defaultPowerModel, defaultFL,
    show Int.toNat 2 = 2 from rfl, show Int.toNat 1 = 1 from rfl,
    show Int.toNat 0 = 0 from rfl]

/-- Second iteration of the single-job run (fresh gantt): the job finishes
after 12.5 ms at the high level and the segment merges. -/
theorem c8_step2 :
    stepF 100000 ⟨[⟨1, 0, 100, 25, 0, -1⟩], 50, 13/100, 50, [(1, 50)], [.run 1 50 1]⟩ =
      ⟨⟨[⟨1, 0, 100, 0, 0, 125/2⟩], 125/2, 149/800, 125/2, [(1, 125/2)],
        [.run 1 50 1, .run 1 (25/2) 2]⟩, some .allDone⟩ := by
  norm_num [stepF, readyOf, readyAux, nextArrival, nextArrAux, nextEvent, nextEvAux,
    SENTINEL, eps, busyStep, runTimeOf, runUntilOf, selFl, selFi, selEntry, chosenFi,
    pick_frequency_index, short_threshold, util_threshold, pick_next_process_index,
    pick_next_aux, execState, runProcOf, ganttAppend, defaultPowerModel, defaultFL,
    show Int.toNat 2 = 2 from rfl, show Int.toNat 1 = 1 from rfl,
    show Int.toNat 0 = 0 from rfl]

/-- First iteration of the second run on the same simulator: the stale
gantt entry from the first run absorbs the new segment. -/
theorem c8_step1b :
    stepF 100000 ⟨[⟨1, 0, 100, 100, -1, -1⟩], 0, 0, 0, [(1, 125/2)], []⟩ =
      ⟨⟨[⟨1, 0, 100, 25, 0, -1⟩], 50, 13/100, 50, [(1, 225/2)], [.run 1 50 1]⟩, none⟩ := by
  norm_num [stepF, readyOf, readyAux, nextArrival, nextArrAux, nextEvent, nextEvAux,
    SENTINEL, eps, busyStep, runTimeOf, runUntilOf, selFl, selFi, selEntry, chosenFi,
    pick_frequency_index, short_threshold, util_threshold, pick_next_process_index,
    pick_next_aux, execState, runProcOf, ganttAppend, defaultPowerModel, defaultFL,
    show Int.toNat 2 = 2 from rfl, show Int.toNat 1 = 1 from rfl,
    show Int.toNat 0 = 0 from rfl]

/-- Second iteration of the second run on the same simulator. -/
theorem c8_step2b :
    stepF 100000 ⟨[⟨1, 0, 100, 25, 0, -1⟩], 50, 13/100, 50, [(1, 225/2)], [.run 1 50 1]⟩ =
      ⟨⟨[⟨1, 0, 100, 0, 0, 125/2⟩], 125/2, 149/800, 125/2, [(1, 125)],
        [.run 1 50 1, .run 1 (25/2) 2]⟩, some .allDone⟩ := by
  norm_num [stepF, readyOf, readyAux, nextArrival, nextArrAux, nextEvent, nextEvAux,
    SENTINEL, eps, busyStep, runTimeOf, runUntilOf, selFl, selFi, selEntry, chosenFi,
    pick_frequency_index, short_threshold, util_threshold, pick_next_process_index,
    pick_next_aux, execState, runProcOf, ganttAppend, defaultPowerModel, defaultFL,
    show Int.toNat 2 = 2 from rfl, show Int.toNat 1 = 1 from rfl,
    show Int.toNat 0 = 0 from rfl]

/-- The first simulate call on a fresh simulator loaded with the single
job (arrival 0, burst 100). -/
def c8run1 : StepOut := reach 100000 (resetForRun (loadState [(0, 100)] initSim)) 2

/-- The second simulate call on the same simulator (state carried over). -/
def c8run2 : StepOut := reach 100000 (resetForRun c8run1.state) 2

/-- C8 evidence (code bug): calling simulate_eadvfs twice on the same
simulator and job set does NOT reproduce the timeline: the reset block
clears energy, busy time, clock and the per-job fields but never clears
the gantt vector, so the second call extends the first timeline, producing
[(1, 125)] instead of [(1, 62.5)].  Both runs otherwise complete
identically. -/
theorem C8_gantt_not_reset :
    c8run1.stop = some .allDone ∧ c8run2.stop = some .allDone ∧
    c8run1.state.gantt = [(1, 125/2)] ∧
    c8run2.state.gantt = [(1, 125)] ∧
    c8run1.state.gantt ≠ c8run2.state.gantt ∧
    c8run1.state.energy = c8run2.state.energy ∧
    c8run1.state.current_time = c8run2.state.current_time := by
  have hload : resetForRun (loadState [(0, 100)] initSim) =
      ⟨[⟨1, 0, 100, 100, -1, -1⟩], 0, 0, 0, [], []⟩ := by
    norm_num [resetForRun, loadState, initSim, load_processes, mkProcess]
  have hrun1 : c8run1 = ⟨⟨[⟨1, 0, 100, 0, 0, 125/2⟩], 125/2, 149/800, 125/2,
      [(1, 125/2)], [.run 1 50 1, .run 1 (25/2) 2]⟩, some .allDone⟩ := by
    simp only [c8run1, reach, advanceO, hload, c8_step1, c8_step2]
  have hload2 : resetForRun c8run1.state =
      ⟨[⟨1, 0, 100, 100, -1, -1⟩], 0, 0, 0, [(1, 125/2)], []⟩ := by
    rw [hrun1]
    norm_num [resetForRun]
  have hrun2 : c8run2 = ⟨⟨[⟨1, 0, 100, 0, 0, 125/2⟩], 125/2, 149/800, 125/2,
      [(1, 125)], [.run 1 50 1, .run 1 (25/2) 2]⟩, some .allDone⟩ := by
    simp only [c8run2, reach, advanceO, hload2, c8_step1b, c8_step2b]
  rw [hrun1, hrun2]
  norm_num

/-!  Membership facts about the ready scan and the selections. -/

/-- Every entry of the ready scan carries its position in the process
vector, an arrival at or before the clock, and remaining demand above
epsilon. -/
theorem readyAux_mem_spec (t : ℚ) :
    ∀ (l : List Process) (n : Nat) (x : Nat × Process), x ∈ readyAux t l n →
      n ≤ x.1 ∧ l.get? (x.1 - n) = some x.2 ∧ x.2.arrival ≤ t ∧ eps < x.2.remaining := by
  intro l
  induction l with
  | nil => intro n x hx; exact absurd hx (List.not_mem_nil x)
  | cons q rest ih =>
    intro n x hx
    simp only [readyAux] at hx
    by_cases hc : q.arrival ≤ t ∧ eps < q.remaining
    · rw [if_pos hc] at hx
      rcases List.mem_cons.mp hx with rfl | hx2
      · exact ⟨le_refl _, by simp, hc.1, hc.2⟩
      · obtain ⟨hn, hget, ha, hr⟩ := ih (n+1) x hx2
        refine ⟨by omega, ?_, ha, hr⟩
        have hpos : x.1 - n = (x.1 - (n+1)) + 1 := by omega
        rw [hpos]
        simpa using hget
    · rw [if_neg hc] at hx
      obtain ⟨hn, hget, ha, hr⟩ := ih (n+1) x hx
      refine ⟨by omega, ?_, ha, hr⟩
      have hpos : x.1 - n = (x.1 - (n+1)) + 1 := by omega
      rw [hpos]
      simpa using hget

/-- The ready scan is empty exactly when no process is ready. -/
theorem readyAux_eq_nil_iff (t : ℚ) :
    ∀ (l : List Process) (n : Nat),
      readyAux t l n = [] ↔ ∀ p ∈ l, ¬(p.arrival ≤ t ∧ eps < p.remaining) := by
  intro l
  induction l with
  | nil => intro n; simp [readyAux]
  | cons q rest ih =>
    intro n
    simp only [readyAux]
    by_cases hc : q.arrival ≤ t ∧ eps < q.remaining
    · rw [if_pos hc]
      simp only [List.cons_ne_nil, false_iff]
      push_neg
      exact ⟨q, List.mem_cons_self q rest, hc⟩
    · rw [if_neg hc]
      rw [ih (n+1)]
      constructor
      · intro h p hp
        rcases List.mem_cons.mp hp with rfl | hp2
        · exact hc
        · exact h p hp2
      · intro h p hp
        exact h p (List.mem_cons_of_mem q hp)

/-- On a non-empty ready set the selected entry is a genuine ready entry:
it sits at its recorded position in the process vector, has arrived, and
has remaining demand above epsilon. -/
theorem selEntry_spec (s : SimState) (hready : readyOf s ≠ []) :
    s.procs.get? (selEntry s).1 = some (selEntry s).2 ∧
    (selEntry s).2.arrival ≤ s.current_time ∧
    eps < (selEntry s).2.remaining := by
  have hmap : ((readyOf s).map Prod.snd) ≠ [] := by
    intro h
    exact hready (List.map_eq_nil_iff.mp h)
  obtain ⟨hpos, hlt⟩ := pick_next_bounds ((readyOf s).map Prod.snd) hmap
  rw [List.length_map] at hlt
  have hmem : selEntry s ∈ readyOf s := by
    rw [selEntry, List.getD_eq_getElem _ _ hlt]
    exact List.getElem_mem _
  obtain ⟨_, hget, ha, hr⟩ := readyAux_mem_spec s.current_time s.procs 0 (selEntry s) hmem
  rw [Nat.sub_zero] at hget
  exact ⟨hget, ha, hr⟩

/-- Every level of the fixed power model (and the fallback level) has
positive speed. -/
theorem freq_ghz_pos (i : Nat) :
    0 < (defaultPowerModel.freqs.getD i defaultFL).ghz := by
  match i with
  | 0 => norm_num [defaultPowerModel]
  | 1 => norm_num [defaultPowerModel]
  | 2 => norm_num [defaultPowerModel]
  | n+3 => norm_num [defaultPowerModel, defaultFL, List.getD]

/-- Every level of the fixed power model (and the fallback level) has
positive power. -/
theorem freq_power_pos (i : Nat) :
    0 < (defaultPowerModel.freqs.getD i defaultFL).power := by
  match i with
  | 0 => norm_num [defaultPowerModel]
  | 1 => norm_num [defaultPowerModel]
  | 2 => norm_num [defaultPowerModel]
  | n+3 => norm_num [defaultPowerModel, defaultFL, List.getD]

/-- With a non-empty ready set and a clock below the sentinel, the run
time of the busy branch is positive: completion time, next event time and
quantum cap all lie strictly after the clock. -/
theorem runTime_pos (s : SimState) (hready : readyOf s ≠ [])
    (hcl : s.current_time < SENTINEL) : 0 < runTimeOf s := by
  obtain ⟨hget, ha, hr⟩ := selEntry_spec s hready
  have hghz : 0 < (selFl s).ghz := freq_ghz_pos (selFi s)
  have h1 : s.current_time < s.current_time + (selEntry s).2.remaining / (selFl s).ghz := by
    have heps : (0 : ℚ) < eps := by norm_num [eps]
    have : 0 < (selEntry s).2.remaining / (selFl s).ghz :=
      div_pos (lt_trans heps hr) hghz
    linarith
  have h2 : s.current_time < nextEvent s.procs s.current_time := nextEvent_gt _ _ hcl
  have h3 : s.current_time < s.current_time + 50 := by linarith
  rw [runTimeOf, runUntil_eq_min3]
  have : s.current_time < min (min (s.current_time + (selEntry s).2.remaining / (selFl s).ghz)
      (nextEvent s.procs s.current_time)) (s.current_time + 50) :=
    lt_min (lt_min h1 h2) h3
  linarith

/-- Complete case analysis of one loop iteration, with the facts each case
provides. -/
theorem stepF_shape (H : ℚ) (s : SimState) :
    (readyOf s = [] ∧
      (∀ p ∈ s.procs, ¬(s.current_time < p.arrival ∧ p.arrival < SENTINEL)) ∧
      stepF H s = ⟨s, some .idleDone⟩) ∨
    (readyOf s = [] ∧
      ∃ na : ℚ, stepF H s = ⟨idleAdvance s na, none⟩ ∧
        s.current_time < na ∧ na < SENTINEL ∧ ∃ q ∈ s.procs, na = q.arrival) ∨
    (readyOf s ≠ [] ∧ runTimeOf s ≤ 0 ∧
      stepF H s = ⟨{ s with current_time := runUntilOf s }, none⟩) ∨
    (readyOf s ≠ [] ∧ 0 < runTimeOf s ∧
      (stepF H s).state = execState s ∧
      ((stepF H s).stop = some .allDone ∨ (stepF H s).stop = some .horizon ∨
        (stepF H s).stop = none) ∧
      ((stepF H s).stop = some .allDone ↔
        ∀ q ∈ (execState s).procs, q.remaining ≤ eps) ∧
      ((stepF H s).stop = some .horizon →
        H < (execState s).current_time ∧
        ¬(∀ q ∈ (execState s).procs, q.remaining ≤ eps)) ∧
      ((stepF H s).stop = none →
        (execState s).current_time ≤ H ∧
        ¬(∀ q ∈ (execState s).procs, q.remaining ≤ eps))) := by
  by_cases hre : readyOf s = []
  · have hempty : (readyOf s).isEmpty = true := by rw [hre]; rfl
    by_cases hflag : (nextArrival s.procs s.current_time).2 = false
    · left
      refine ⟨hre, ?_, by simp [stepF, hempty, hflag]⟩
      exact nextArrAux_false s.current_time s.procs SENTINEL hflag
    · right; left
      refine ⟨hre, (nextArrival s.procs s.current_time).1, by simp [stepF, hempty, hflag], ?_⟩
      rcases nextArrAux_cases s.current_time s.procs (SENTINEL, false) with heq | ⟨hf, hlt, p, hp, hv, ht⟩
      · exact absurd (congrArg Prod.snd heq) hflag
      · exact ⟨hv ▸ ht, hv ▸ (hv ▸ hlt), p, hp, hv⟩
  · have hempty : (readyOf s).isEmpty = false := by
      cases h : readyOf s with
      | nil => exact absurd h hre
      | cons a l => rfl
    by_cases hrt : runTimeOf s ≤ 0
    · right; right; left
      refine ⟨hre, hrt, ?_⟩
      simp [stepF, hempty, busyStep, hrt]
    · right; right; right
      have hd : 0 < runTimeOf s := lt_of_not_le hrt
      have hstate : (stepF H s).state = execState s := stepF_state_of_pos H s hre hd
      have hall :
          ((execState s).procs.all (fun q => decide (q.remaining ≤ eps)) = true) ↔
          ∀ q ∈ (execState s).procs, q.remaining ≤ eps := by
        rw [List.all_eq_true]
        constructor
        · intro h q hq; exact of_decide_eq_true (h q hq)
        · intro h q hq; exact decide_eq_true (h q hq)
      refine ⟨hre, hd, hstate, ?_, ?_, ?_, ?_⟩
      all_goals
        simp only [stepF, hempty, Bool.false_eq_true, if_false, busyStep, if_neg hrt]
      all_goals
        by_cases ha : (execState s).procs.all (fun q => decide (q.remaining ≤ eps)) = true
      · rw [if_pos ha]; left; rfl
      · rw [if_neg ha]
        by_cases hh : H < (execState s).current_time
        · rw [if_pos hh]; right; left; rfl
        · rw [if_neg hh]; right; right; rfl
      · rw [if_pos ha]
        simp only [Option.some.injEq, true_iff]
        exact hall.mp ha
      · rw [if_neg ha]
        constructor
        · intro hcontra
          by_cases hh : H < (execState s).current_time
          · rw [if_pos hh] at hcontra; exact absurd (Option.some.inj hcontra) (by simp)
          · rw [if_neg hh] at hcontra; exact absurd hcontra (by simp)
        · intro hq
          exact absurd (hall.mpr hq) ha
      · rw [if_pos ha]
        intro hcontra
        exact absurd (Option.some.inj hcontra) (by simp)
      · rw [if_neg ha]
        by_cases hh : H < (execState s).current_time
        · rw [if_pos hh]
          intro _
          refine ⟨hh, fun hq => absurd (hall.mpr hq) ha⟩
        · rw [if_neg hh]
          intro hcontra
          exact absurd hcontra (by simp)
      · rw [if_pos ha]
        intro hcontra
        exact absurd hcontra (by simp)
      · rw [if_neg ha]
        by_cases hh : H < (execState s).current_time
        · rw [if_pos hh]
          intro hcontra
          exact absurd hcontra (by simp)
        · rw [if_neg hh]
          intro _
          exact ⟨le_of_not_lt hh, fun hq => absurd (hall.mpr hq) ha⟩

/-!  Counting helpers for the termination measure and invariants. -/

/-- Updating one position with a value that satisfies the predicate no
more often cannot increase the count. -/
theorem countP_set_le {α : Type} (q : α → Bool) :
    ∀ (l : List α) (j : Nat) (b : α),
      (∀ a, l.get? j = some a → (q b = true → q a = true)) →
      (l.set j b).countP q ≤ l.countP q := by
  intro l
  induction l with
  | nil => intro j b _; simp
  | cons x rest ih =>
    intro j b hab
    match j with
    | 0 =>
      simp only [List.set_cons_zero, List.countP_cons]
      have := hab x (by simp)
      by_cases hb : q b = true
      · rw [hb, this hb]
      · rw [Bool.not_eq_true] at hb
        rw [hb]
        simp
    | j'+1 =>
      simp only [List.set_cons_succ, List.countP_cons]
      have := ih j' b (fun a ha => hab a (by simpa using ha))
      omega

/-- Updating a position that satisfied the predicate with a value that
does not strictly decreases the count. -/
theorem countP_set_lt {α : Type} (q : α → Bool) :
    ∀ (l : List α) (j : Nat) (a b : α),
      l.get? j = some a → q a = true → q b = false →
      (l.set j b).countP q < l.countP q := by
  intro l
  induction l with
  | nil => intro j a b h; simp at h
  | cons x rest ih =>
    intro j a b hget hqa hqb
    match j with
    | 0 =>
      simp only [List.get?] at hget
      obtain rfl : x = a := by injection hget
      simp only [List.set_cons_zero, List.countP_cons, hqa, hqb]
      have := countP_set_le q rest rest.length b (by
        intro c hc
        rw [List.get?_eq_getElem?] at hc
        simp at hc)
      simp only [Bool.false_eq_true, if_false, if_true, add_zero]
      omega
    | j'+1 =>
      simp only [List.get?] at hget
      simp only [List.set_cons_succ, List.countP_cons]
      have := ih j' a b hget hqa hqb
      omega

/-- Updating one position with a value on which the predicate agrees with
the old value keeps the count. -/
theorem countP_set_eq {α : Type} (q : α → Bool) :
    ∀ (l : List α) (j : Nat) (a b : α),
      l.get? j = some a → q b = q a →
      (l.set j b).countP q = l.countP q := by
  intro l
  induction l with
  | nil => intro j a b h; simp at h
  | cons x rest ih =>
    intro j a b hget hq
    match j with
    | 0 =>
      simp only [List.get?] at hget
      obtain rfl : x = a := by injection hget
      simp only [List.set_cons_zero, List.countP_cons, hq]
    | j'+1 =>
      simp only [List.get?] at hget
      simp only [List.set_cons_succ, List.countP_cons, ih j' a b hget hq]

/-- A pointwise implication together with one witness where it is strict
gives a strict count inequality. -/
theorem countP_lt_of_witness {α : Type} (p q : α → Bool) :
    ∀ (l : List α) (a0 : α), (∀ a ∈ l, q a = true → p a = true) →
      a0 ∈ l → p a0 = true → q a0 = false →
      l.countP q < l.countP p := by
  intro l
  induction l with
  | nil => intro a0 _ h; exact absurd h (List.not_mem_nil a0)
  | cons x rest ih =>
    intro a0 himp hmem hp hq
    rcases List.mem_cons.mp hmem with rfl | hmem2
    · simp only [List.countP_cons, hp, hq]
      have : rest.countP q ≤ rest.countP p :=
        List.countP_mono_left (fun a ha => himp a (List.mem_cons_of_mem a0 ha))
      simp only [Bool.false_eq_true, if_false, if_true, add_zero]
      omega
    · simp only [List.countP_cons]
      have hrest := ih a0 (fun a ha => himp a (List.mem_cons_of_mem x ha)) hmem2 hp hq
      have hx : (if q x = true then 1 else 0) ≤ (if p x = true then 1 else 0) := by
        by_cases hqx : q x = true
        · rw [if_pos hqx, if_pos (himp x (List.mem_cons_self x rest) hqx)]
        · rw [if_neg hqx]
          omega
      omega

/-!  Claim C6: energy accounting. -/

/-- The power a ghost event was charged at. -/
def evPower (ev : Ev) : ℚ :=
  match ev with
  | .idle _ => defaultPowerModel.idle_power
  | .run _ _ fi => (defaultPowerModel.freqs.getD fi defaultFL).power

/-- No segment power is negative: the idle power and every table level are
positive. -/
theorem evPower_nonneg (ev : Ev) : 0 ≤ evPower ev := by
  match ev with
  | .idle d => norm_num [evPower, defaultPowerModel]
  | .run pid d fi => exact le_of_lt (freq_power_pos fi)

/-- The merge-append of a gantt segment adds exactly its duration to the
total logged duration. -/
theorem ganttTotal_append (g : List (Int × ℚ)) (pid : Int) (d : ℚ) :
    ganttTotal (ganttAppend g pid d) = ganttTotal g + d := by
  induction g with
  | nil => simp [ganttAppend, ganttTotal]
  | cons e rest ih =>
    cases rest with
    | nil =>
      by_cases hp : e.1 = pid
      · simp [ganttAppend, hp, ganttTotal]
      · simp [ganttAppend, hp, ganttTotal]
    | cons e2 rest2 =>
      simp only [ganttAppend, ganttTotal, List.map_cons, List.sum_cons] at ih ⊢
      rw [ih]
      ring

/-- Appending a ghost event adds exactly its energy. -/
theorem eventsEnergy_append (l : List Ev) (ev : Ev) :
    eventsEnergy (l ++ [ev]) = eventsEnergy l + evEnergy ev := by
  simp [eventsEnergy]

/-- One loop iteration never decreases energy, and preserves both the
energy-equals-event-sum and gantt-total-equals-busy-time invariants. -/
theorem step_energy (H : ℚ) (s : SimState) :
    s.energy ≤ (stepF H s).state.energy ∧
    ((s.energy = eventsEnergy s.events ∧ ganttTotal s.gantt = s.busy_time) →
      ((stepF H s).state.energy = eventsEnergy (stepF H s).state.events ∧
        ganttTotal (stepF H s).state.gantt = (stepF H s).state.busy_time)) := by
  rcases stepF_shape H s with
    ⟨_, _, heq⟩ | ⟨_, na, heq, hgt, _, _⟩ | ⟨_, _, heq⟩ |
    ⟨_, hd, hstate, _⟩
  · rw [heq]
    exact ⟨le_refl _, fun h => h⟩
  · rw [heq]
    constructor
    · simp only [idleAdvance]
      have : 0 ≤ defaultPowerModel.idle_power * ((na - s.current_time) / 1000) := by
        have h1 : (0:ℚ) ≤ defaultPowerModel.idle_power := by norm_num [defaultPowerModel]
        have h2 : 0 ≤ (na - s.current_time) / 1000 := by
          have : 0 ≤ na - s.current_time := by linarith
          positivity
        positivity
      linarith
    · intro ⟨he, hg⟩
      simp only [idleAdvance]
      refine ⟨?_, hg⟩
      rw [eventsEnergy_append, he]
      rfl
  · rw [heq]
    exact ⟨le_refl _, fun h => h⟩
  · rw [hstate]
    constructor
    · simp only [execState]
      have h1 : 0 < (selFl s).power := freq_power_pos (selFi s)
      have h2 : 0 < runTimeOf s / 1000 := by positivity
      nlinarith
    · intro ⟨he, hg⟩
      simp only [execState]
      constructor
      · rw [eventsEnergy_append, he]
        rfl
      · rw [ganttTotal_append, hg]

/-- C6: along every run from a loaded job set, cumulative energy always
equals the exact sum of segment energies (run segments at the power of
the level actually used, idle segments at idle power), the gantt log
total always equals the busy-time counter, energy never decreases from
one iteration to the next, and no segment power is negative. -/
theorem C6_energy_invariant (jobs : List (ℚ × ℚ)) (H : ℚ) (n : Nat) :
    ((reach H (resetForRun (loadState jobs initSim)) n).state.energy =
      eventsEnergy (reach H (resetForRun (loadState jobs initSim)) n).state.events ∧
     ganttTotal (reach H (resetForRun (loadState jobs initSim)) n).state.gantt =
      (reach H (resetForRun (loadState jobs initSim)) n).state.busy_time) ∧
    (reach H (resetForRun (loadState jobs initSim)) n).state.energy ≤
      (reach H (resetForRun (loadState jobs initSim)) (n+1)).state.energy ∧
    (∀ ev : Ev, 0 ≤ evPower ev) := by
  have hbase :
      ∀ m : Nat, (reach H (resetForRun (loadState jobs initSim)) m).state.energy =
        eventsEnergy (reach H (resetForRun (loadState jobs initSim)) m).state.events ∧
      ganttTotal (reach H (resetForRun (loadState jobs initSim)) m).state.gantt =
        (reach H (resetForRun (loadState jobs initSim)) m).state.busy_time := by
    intro m
    induction m with
    | zero =>
      constructor
      · simp [reach, resetForRun, loadState, initSim, eventsEnergy]
      · simp [reach, resetForRun, loadState, initSim, ganttTotal]
    | succ m ihm =>
      have hr : reach H (resetForRun (loadState jobs initSim)) (m+1) =
          advanceO H (reach H (resetForRun (loadState jobs initSim)) m) := rfl
      rw [hr]
      rcases hstop : (reach H (resetForRun (loadState jobs initSim)) m).stop with _ | k
      · simp only [advanceO, hstop]
        exact (step_energy H _).2 ihm
      · simp only [advanceO, hstop]
        exact ihm
  refine ⟨hbase n, ?_, evPower_nonneg⟩
  have hr : reach H (resetForRun (loadState jobs initSim)) (n+1) =
      advanceO H (reach H (resetForRun (loadState jobs initSim)) n) := rfl
  rw [hr]
  rcases hstop : (reach H (resetForRun (loadState jobs initSim)) n).stop with _ | k
  · simp only [advanceO, hstop]
    exact (step_energy H _).1
  · simp only [advanceO, hstop]
    exact le_refl _

/-!  Makespan helpers. -/

/-- A max-fold over finish times never goes below its starting value. -/
theorem le_foldl_max (l : List Process) :
    ∀ v : ℚ, v ≤ l.foldl (fun m p => max m p.finish_time) v := by
  induction l with
  | nil => intro v; exact le_refl _
  | cons q rest ih =>
    intro v
    exact le_trans (le_max_left v q.finish_time) (ih _)

/-- A max-fold over finish times dominates each member finish time. -/
theorem finish_le_foldl_max (l : List Process) :
    ∀ v : ℚ, ∀ p ∈ l, p.finish_time ≤ l.foldl (fun m p => max m p.finish_time) v := by
  induction l with
  | nil => intro v p hp; exact absurd hp (List.not_mem_nil p)
  | cons q rest ih =>
    intro v p hp
    rcases List.mem_cons.mp hp with rfl | hp2
    · exact le_trans (le_max_right v p.finish_time) (le_foldl_max rest _)
    · exact ih _ p hp2

/-- The makespan is non-negative. -/
theorem makespan_nonneg (procs : List Process) : 0 ≤ makespan procs :=
  le_foldl_max procs 0

/-- The makespan dominates each finish time. -/
theorem le_makespan (procs : List Process) (p : Process) (hp : p ∈ procs) :
    p.finish_time ≤ makespan procs :=
  finish_le_foldl_max procs 0 p hp

/-!  The runtime invariant bundle for C7 and C10. -/

/-- The standing state invariant of the engine: clock non-negative, busy
time bounded by the clock (and by the makespan whenever nothing is
ready), start stamps bounded by the clock, and every set finish stamp
consistent (job complete, start set and below it, stamp below the
clock). -/
def goodState (s : SimState) : Prop :=
  0 ≤ s.current_time ∧
  s.busy_time ≤ s.current_time ∧
  (readyOf s = [] → s.busy_time ≤ makespan s.procs) ∧
  (∀ p ∈ s.procs, 0 ≤ p.start_time → p.start_time ≤ s.current_time) ∧
  (∀ p ∈ s.procs, 0 ≤ p.finish_time →
    0 ≤ p.start_time ∧ p.start_time ≤ p.finish_time ∧ p.remaining ≤ eps ∧
    p.finish_time ≤ s.current_time)

/-- Positional description of the process vector after the busy write-back. -/
theorem set_getD_spec (l : List Process) (j : Nat) (b : Process) (p : Process)
    (hget : l.get? j = some p) :
    (l.set j b).getD j dummyProcess = b ∧
    (∀ i : Nat, i ≠ j → (l.set j b).getD i dummyProcess = l.getD i dummyProcess) := by
  obtain ⟨hj, _⟩ := List.get?_eq_some.mp hget
  constructor
  · rw [List.getD_eq_get?, List.get?_set_eq, hget]
    rfl
  · intro i hij
    rw [List.getD_eq_get?, List.get?_set_ne _ _ (fun h => hij h.symm), ← List.getD_eq_get?]

/-- One loop iteration preserves the invariant bundle, advances the clock,
keeps continuing clocks below the sentinel, never increases any remaining
demand, never revises a set finish stamp, and keeps remaining demands
non-negative. -/
theorem step_good (H : ℚ) (s : SimState) (hH : H ≤ 10^17)
    (hcl : s.current_time < SENTINEL) (hg : goodState s) :
    s.current_time ≤ (stepF H s).state.current_time ∧
    goodState (stepF H s).state ∧
    ((stepF H s).stop = none → (stepF H s).state.current_time < SENTINEL) ∧
    (∀ i : Nat,
      ((stepF H s).state.procs.getD i dummyProcess).remaining ≤
        (s.procs.getD i dummyProcess).remaining) ∧
    (∀ i : Nat, 0 ≤ (s.procs.getD i dummyProcess).finish_time →
      ((stepF H s).state.procs.getD i dummyProcess).finish_time =
        (s.procs.getD i dummyProcess).finish_time) ∧
    ((∀ p ∈ s.procs, 0 ≤ p.remaining) → ∀ p ∈ (stepF H s).state.procs, 0 ≤ p.remaining) := by
  obtain ⟨hg1, hg2, hg3, hg4, hg5⟩ := hg
  have hsent : (10:ℚ)^17 < SENTINEL := by norm_num [SENTINEL]
  rcases stepF_shape H s with
    ⟨hre, hnofut, heq⟩ | ⟨hre, na, heq, hgt, hna, _⟩ | ⟨hre, hrt, heq⟩ |
    ⟨hre, hd, hstate, hstops, halliff, hhor, hnone⟩
  · rw [heq]
    exact ⟨le_refl _, ⟨hg1, hg2, hg3, hg4, hg5⟩, by simp, fun i => le_refl _,
      fun i _ => rfl, fun h => h⟩
  · rw [heq]
    have hproc : (idleAdvance s na).procs = s.procs := rfl
    have hclk : (idleAdvance s na).current_time = na := rfl
    have hbusy : (idleAdvance s na).busy_time = s.busy_time := rfl
    refine ⟨le_of_lt hgt, ⟨?_, ?_, ?_, ?_, ?_⟩, fun _ => hna, fun i => le_refl _,
      fun i _ => rfl, fun h => h⟩
    · rw [hclk]; linarith
    · rw [hclk, hbusy]; linarith
    · intro _
      rw [hbusy, hproc]
      exact hg3 hre
    · intro p hp hps
      rw [hclk]
      exact le_trans (hg4 p hp hps) (le_of_lt hgt)
    · intro p hp hpf
      obtain ⟨h1, h2, h3, h4⟩ := hg5 p hp hpf
      rw [hclk]
      exact ⟨h1, h2, h3, le_trans h4 (le_of_lt hgt)⟩
  · exact absurd hrt (not_le.mpr (runTime_pos s hre hcl))
  · obtain ⟨hget, ha, hr⟩ := selEntry_spec s hre
    obtain ⟨hj, _⟩ := List.get?_eq_some.mp hget
    obtain ⟨rrem, rpid, rarr, rburst, rstart, rfin⟩ := runProcOf_fields s
    have hepos : (0:ℚ) < eps := by norm_num [eps]
    have hwork : 0 < runTimeOf s * (selFl s).ghz :=
      mul_pos hd (freq_ghz_pos (selFi s))
    have hclk : (execState s).current_time = s.current_time + runTimeOf s := rfl
    have hproc : (execState s).procs = s.procs.set (selEntry s).1 (runProcOf s) := rfl
    have hbusy : (execState s).busy_time = s.busy_time + runTimeOf s := rfl
    obtain ⟨hsetj, hseti⟩ := set_getD_spec s.procs (selEntry s).1 (runProcOf s) _ hget
    have hgetD : s.procs.getD (selEntry s).1 dummyProcess = (selEntry s).2 := by
      rw [List.getD_eq_get?, hget]
      rfl
    have hmemrp : runProcOf s ∈ (execState s).procs := by
      rw [hproc]
      exact List.mem_set s.procs _ hj _
    have hstart_le : (runProcOf s).start_time ≤ s.current_time := by
      rw [rstart]
      by_cases hst : (selEntry s).2.start_time < 0
      · rw [if_pos hst]
      · rw [if_neg hst]
        exact hg4 _ (List.get?_mem hget) (le_of_not_lt hst)
    have hstart_nonneg : 0 ≤ (runProcOf s).start_time := by
      rw [rstart]
      by_cases hst : (selEntry s).2.start_time < 0
      · rw [if_pos hst]; exact hg1
      · rw [if_neg hst]; exact le_of_not_lt hst
    rw [hstate]
    refine ⟨by rw [hclk]; linarith, ⟨?_, ?_, ?_, ?_, ?_⟩, ?_, ?_, ?_, ?_⟩
    · rw [hclk]; linarith
    · rw [hclk, hbusy]; linarith
    · intro hre2
      have hall2 := (readyAux_eq_nil_iff (execState s).current_time
        (execState s).procs 0).mp hre2
      have hrp := hall2 (runProcOf s) hmemrp
      have harr2 : (runProcOf s).arrival ≤ (execState s).current_time := by
        rw [rarr, hclk]
        linarith
      have hrpdone : (runProcOf s).remaining ≤ eps := by
        by_contra hc
        exact hrp ⟨harr2, lt_of_not_le hc⟩
      have hfin2 : (runProcOf s).finish_time = s.current_time + runTimeOf s := by
        rw [rfin, if_pos (rrem ▸ hrpdone)]
      have := le_makespan (execState s).procs (runProcOf s) hmemrp
      rw [hfin2] at this
      rw [hbusy]
      linarith
    · intro p hp hps
      rw [hproc] at hp
      rcases List.mem_or_eq_of_mem_set hp with hpold | rfl
      · rw [hclk]
        exact le_trans (hg4 p hpold hps) (by linarith)
      · rw [hclk]
        linarith
    · intro p hp hpf
      rw [hproc] at hp
      rcases List.mem_or_eq_of_mem_set hp with hpold | rfl
      · obtain ⟨h1, h2, h3, h4⟩ := hg5 p hpold hpf
        rw [hclk]
        exact ⟨h1, h2, h3, by linarith⟩
      · by_cases hcomp : (runProcOf s).remaining ≤ eps
        · have hfin2 : (runProcOf s).finish_time = s.current_time + runTimeOf s := by
            rw [rfin, if_pos (rrem ▸ hcomp)]
          rw [hclk, hfin2]
          exact ⟨hstart_nonneg, by linarith, hcomp, le_refl _⟩
        · have hfin2 : (runProcOf s).finish_time = (selEntry s).2.finish_time := by
            rw [rfin, if_neg (fun hc => hcomp (rrem ▸ hc))]
          rw [hfin2] at hpf
          obtain ⟨_, _, h3, _⟩ := hg5 _ (List.get?_mem hget) hpf
          exact absurd h3 (not_le.mpr hr)
    · intro hn
      have := hnone hn
      rw [hclk] at this ⊢
      calc s.current_time + runTimeOf s ≤ H := this.1
        _ ≤ 10^17 := hH
        _ < SENTINEL := hsent
    · intro i
      by_cases hi : i = (selEntry s).1
      · subst hi
        rw [hproc, hsetj, hgetD, rrem]
        have h0 : 0 ≤ (selEntry s).2.remaining := le_of_lt (lt_trans hepos hr)
        exact max_le h0 (by linarith)
      · rw [hproc, hseti i hi]
    · intro i hfi
      by_cases hi : i = (selEntry s).1
      · subst hi
        rw [hgetD] at hfi
        obtain ⟨_, _, h3, _⟩ := hg5 _ (List.get?_mem hget) hfi
        exact absurd h3 (not_le.mpr hr)
      · rw [hproc, hseti i hi]
    · intro hnn p hp
      rw [hproc] at hp
      rcases List.mem_or_eq_of_mem_set hp with hpold | rfl
      · exact hnn p hpold
      · rw [rrem]
        exact le_max_left 0 _

/-- The initial state of a run over a loaded job set. -/
def startState (jobs : List (ℚ × ℚ)) : SimState :=
  resetForRun (loadState jobs initSim)

/-- Every process of the freshly loaded-and-reset state has unset start
and finish marks, and its remaining demand equals the burst of one of the
input pairs. -/
theorem startState_procs (jobs : List (ℚ × ℚ)) :
    ∀ p ∈ (startState jobs).procs,
      p.start_time = -1 ∧ p.finish_time = -1 ∧ ∃ pr ∈ jobs, p.remaining = pr.2 := by
  intro p hp
  simp only [startState, resetForRun, loadState, load_processes, initSim,
    List.map_map, List.mem_map] at hp
  obtain ⟨ip, hip, rfl⟩ := hp
  refine ⟨rfl, rfl, ip.2, List.snd_mem_of_mem_enum hip, rfl⟩

/-- The invariant bundle holds at the initial state of every run. -/
theorem startState_good (jobs : List (ℚ × ℚ)) : goodState (startState jobs) := by
  refine ⟨le_refl 0, le_refl 0, ?_, ?_, ?_⟩
  · intro _
    exact makespan_nonneg _
  · intro p hp hps
    obtain ⟨h1, _, _⟩ := startState_procs jobs p hp
    rw [h1] at hps
    norm_num at hps
  · intro p hp hpf
    obtain ⟨_, h2, _⟩ := startState_procs jobs p hp
    rw [h2] at hpf
    norm_num at hpf

/-- The invariant bundle, the sentinel bound on continuing clocks, and
non-negative remaining demands (for non-negative input bursts) hold at
every point of every run with a reasonable horizon. -/
theorem reach_good (jobs : List (ℚ × ℚ)) (H : ℚ) (hH : H ≤ 10^17) (n : Nat) :
    goodState (reach H (startState jobs) n).state ∧
    ((reach H (startState jobs) n).stop = none →
      (reach H (startState jobs) n).state.current_time < SENTINEL) ∧
    ((∀ j ∈ jobs, 0 ≤ j.2) →
      ∀ p ∈ (reach H (startState jobs) n).state.procs, 0 ≤ p.remaining) := by
  induction n with
  | zero =>
    refine ⟨startState_good jobs, ?_, ?_⟩
    · intro _
      show (startState jobs).current_time < SENTINEL
      norm_num [startState, resetForRun, loadState, initSim, SENTINEL]
    · intro hb p hp
      obtain ⟨_, _, pr, hpr, hrem⟩ := startState_procs jobs p hp
      rw [hrem]
      exact hb pr hpr
  | succ n ih =>
    obtain ⟨ihg, ihcl, ihnn⟩ := ih
    have hr : reach H (startState jobs) (n+1) =
        advanceO H (reach H (startState jobs) n) := rfl
    rcases hstop : (reach H (startState jobs) n).stop with _ | k
    · have hcl := ihcl hstop
      obtain ⟨_, hgood, hclnext, _, _, hnn⟩ :=
        step_good H (reach H (startState jobs) n).state hH hcl ihg
      rw [hr]
      simp only [advanceO, hstop]
      exact ⟨hgood, hclnext, fun hb => hnn (ihnn hb)⟩
    · rw [hr]
      simp only [advanceO, hstop]
      exact ⟨ihg, by simp, ihnn⟩

/-- Classification of the three stop kinds by the final state they leave. -/
theorem reach_stop_classify (H : ℚ) (s0 : SimState) (n : Nat) (k : StopKind)
    (hstop : (reach H s0 n).stop = some k) :
    (k = .idleDone → readyOf (reach H s0 n).state = [] ∧
      ∀ p ∈ (reach H s0 n).state.procs,
        ¬((reach H s0 n).state.current_time < p.arrival ∧ p.arrival < SENTINEL)) ∧
    (k = .allDone → ∀ q ∈ (reach H s0 n).state.procs, q.remaining ≤ eps) ∧
    (k = .horizon → H < (reach H s0 n).state.current_time ∧
      ∃ q ∈ (reach H s0 n).state.procs, eps < q.remaining) := by
  induction n with
  | zero => simp [reach] at hstop
  | succ n ih =>
    have hr : reach H s0 (n+1) = advanceO H (reach H s0 n) := rfl
    rcases hprev : (reach H s0 n).stop with _ | k2
    · rw [hr] at hstop ⊢
      simp only [advanceO, hprev] at hstop ⊢
      rcases stepF_shape H (reach H s0 n).state with
        ⟨hre, hnofut, heq⟩ | ⟨_, na, heq, _⟩ | ⟨_, _, heq⟩ |
        ⟨_, _, hstate, hstops, halliff, hhor, _⟩
      · rw [heq] at hstop ⊢
        have hk : k = .idleDone := by
          have := Option.some.inj hstop
          exact this.symm
        subst hk
        refine ⟨fun _ => ⟨hre, hnofut⟩, ?_, ?_⟩
        · intro hcontra; exact absurd hcontra (by simp)
        · intro hcontra; exact absurd hcontra (by simp)
      · rw [heq] at hstop
        exact absurd hstop (by simp)
      · rw [heq] at hstop
        exact absurd hstop (by simp)
      · rw [hstate]
        refine ⟨?_, ?_, ?_⟩
        · intro hk
          subst hk
          rcases hstops with h | h | h <;> rw [h] at hstop
          · exact absurd (Option.some.inj hstop) (by simp)
          · exact absurd (Option.some.inj hstop) (by simp)
          · exact absurd hstop (by simp)
        · intro hk
          subst hk
          exact halliff.mp hstop
        · intro hk
          subst hk
          obtain ⟨h1, h2⟩ := hhor hstop
          refine ⟨h1, ?_⟩
          push_neg at h2
          obtain ⟨q, hq, hqr⟩ := h2
          exact ⟨q, hq, hqr⟩
    · rw [hr] at hstop ⊢
      simp only [advanceO, hprev] at hstop ⊢
      have : k2 = k := Option.some.inj hstop
      subst this
      exact ih hprev

/-- C7: along every run over a job set with non-negative bursts (the data
model fixes demands as ms of work) and a reasonable horizon, each job's
remaining demand never increases from one iteration to the next and never
goes negative, a set completion stamp is never revised by a later
iteration, and whenever both stamps are set the first-dispatch stamp is at
or before the completion stamp. -/
theorem C7_job_invariants (jobs : List (ℚ × ℚ)) (H : ℚ) (n i : Nat)
    (hH : H ≤ 10^17) (hb : ∀ j ∈ jobs, 0 ≤ j.2) :
    ((reach H (startState jobs) (n+1)).state.procs.getD i dummyProcess).remaining ≤
      ((reach H (startState jobs) n).state.procs.getD i dummyProcess).remaining ∧
    0 ≤ ((reach H (startState jobs) n).state.procs.getD i dummyProcess).remaining ∧
    (0 ≤ ((reach H (startState jobs) n).state.procs.getD i dummyProcess).finish_time →
      ((reach H (startState jobs) (n+1)).state.procs.getD i dummyProcess).finish_time =
        ((reach H (startState jobs) n).state.procs.getD i dummyProcess).finish_time) ∧
    ((0 ≤ ((reach H (startState jobs) n).state.procs.getD i dummyProcess).start_time ∧
      0 ≤ ((reach H (startState jobs) n).state.procs.getD i dummyProcess).finish_time) →
      ((reach H (startState jobs) n).state.procs.getD i dummyProcess).start_time ≤
        ((reach H (startState jobs) n).state.procs.getD i dummyProcess).finish_time) := by
  obtain ⟨hgood, hclock, hnn⟩ := reach_good jobs H hH n
  have hstepfacts :
      (((reach H (startState jobs) (n+1)).state.procs.getD i dummyProcess).remaining ≤
        ((reach H (startState jobs) n).state.procs.getD i dummyProcess).remaining) ∧
      (0 ≤ ((reach H (startState jobs) n).state.procs.getD i dummyProcess).finish_time →
        ((reach H (startState jobs) (n+1)).state.procs.getD i dummyProcess).finish_time =
          ((reach H (startState jobs) n).state.procs.getD i dummyProcess).finish_time) := by
    have hr : reach H (startState jobs) (n+1) =
        advanceO H (reach H (startState jobs) n) := rfl
    rcases hstop : (reach H (startState jobs) n).stop with _ | k
    · obtain ⟨_, _, _, hrem, hfin, _⟩ :=
        step_good H (reach H (startState jobs) n).state hH (hclock hstop) hgood
      rw [hr]
      simp only [advanceO, hstop]
      exact ⟨hrem i, hfin i⟩
    · rw [hr]
      simp only [advanceO, hstop]
      exact ⟨le_refl _, fun _ => trivial⟩
  refine ⟨hstepfacts.1, ?_, hstepfacts.2, ?_⟩
  · by_cases hi : i < (reach H (startState jobs) n).state.procs.length
    · rw [List.getD_eq_getElem _ _ hi]
      exact hnn hb _ (List.getElem_mem hi)
    · rw [List.getD_eq_default _ _ (le_of_not_lt hi)]
      norm_num [dummyProcess, mkProcess]
  · intro ⟨hs, hf⟩
    by_cases hi : i < (reach H (startState jobs) n).state.procs.length
    · rw [List.getD_eq_getElem _ _ hi] at hs hf ⊢
      obtain ⟨_, h2, _, _⟩ := hgood.2.2.2.2 _ (List.getElem_mem hi) hf
      exact h2
    · rw [List.getD_eq_default _ _ (le_of_not_lt hi)] at hs
      norm_num [dummyProcess, mkProcess] at hs

/-- Witness for C7 at the single job (arrival 0, burst 100), horizon
100000, first iteration, job index 0. -/
theorem C7_witness :
    ((100000 : ℚ) ≤ 10^17 ∧ (∀ j ∈ ([(0, 100)] : List (ℚ × ℚ)), 0 ≤ j.2)) ∧
    (((reach 100000 (startState [(0, 100)]) 1).state.procs.getD 0 dummyProcess).remaining ≤
      ((reach 100000 (startState [(0, 100)]) 0).state.procs.getD 0 dummyProcess).remaining ∧
    0 ≤ ((reach 100000 (startState [(0, 100)]) 0).state.procs.getD 0 dummyProcess).remaining ∧
    (0 ≤ ((reach 100000 (startState [(0, 100)]) 0).state.procs.getD 0 dummyProcess).finish_time →
      ((reach 100000 (startState [(0, 100)]) 1).state.procs.getD 0 dummyProcess).finish_time =
        ((reach 100000 (startState [(0, 100)]) 0).state.procs.getD 0 dummyProcess).finish_time) ∧
    ((0 ≤ ((reach 100000 (startState [(0, 100)]) 0).state.procs.getD 0 dummyProcess).start_time ∧
      0 ≤ ((reach 100000 (startState [(0, 100)]) 0).state.procs.getD 0 dummyProcess).finish_time) →
      ((reach 100000 (startState [(0, 100)]) 0).state.procs.getD 0 dummyProcess).start_time ≤
        ((reach 100000 (startState [(0, 100)]) 0).state.procs.getD 0 dummyProcess).finish_time)) :=
  ⟨⟨by norm_num, by norm_num⟩,
    C7_job_invariants [(0, 100)] 100000 0 0 (by norm_num) (by norm_num)⟩

/-- C10 (amended to non-horizon stops): busy time never exceeds the clock
at any point of a run; and at a termination other than the horizon guard,
busy time is at most the makespan and the reported utilization percentage
is at most 100 whenever the makespan is at least 1 ms. -/
theorem C10_busy_utilization (jobs : List (ℚ × ℚ)) (H : ℚ) (n : Nat)
    (hH : H ≤ 10^17) :
    (reach H (startState jobs) n).state.busy_time ≤
      (reach H (startState jobs) n).state.current_time ∧
    (∀ k : StopKind, (reach H (startState jobs) n).stop = some k → k ≠ .horizon →
      (reach H (startState jobs) n).state.busy_time ≤
        makespan (reach H (startState jobs) n).state.procs ∧
      (1 ≤ makespan (reach H (startState jobs) n).state.procs →
        cpu_util (reach H (startState jobs) n).state ≤ 100)) := by
  obtain ⟨hgood, _, _⟩ := reach_good jobs H hH n
  refine ⟨hgood.2.1, ?_⟩
  intro k hstop hkh
  have hready : readyOf (reach H (startState jobs) n).state = [] := by
    obtain ⟨hidle, hdone, _⟩ := reach_stop_classify H (startState jobs) n k hstop
    match k with
    | .idleDone => exact (hidle rfl).1
    | .allDone =>
      have hall := hdone rfl
      rw [readyOf, readyAux_eq_nil_iff]
      intro p hp ⟨_, hrp⟩
      exact absurd (hall p hp) (not_le.mpr hrp)
    | .horizon => exact absurd rfl hkh
  have hbm : (reach H (startState jobs) n).state.busy_time ≤
      makespan (reach H (startState jobs) n).state.procs := hgood.2.2.1 hready
  refine ⟨hbm, ?_⟩
  intro hm1
  rw [cpu_util, max_eq_right hm1]
  have hmpos : (0:ℚ) < makespan (reach H (startState jobs) n).state.procs := by linarith
  have hdiv : (reach H (startState jobs) n).state.busy_time /
      makespan (reach H (startState jobs) n).state.procs ≤ 1 :=
    (div_le_one hmpos).mpr hbm
  calc (reach H (startState jobs) n).state.busy_time /
        makespan (reach H (startState jobs) n).state.procs * 100
      ≤ 1 * 100 := mul_le_mul_of_nonneg_right hdiv (by norm_num)
    _ = 100 := by norm_num

/-- Witness for C10 at the single job (arrival 0, burst 100), horizon
100000, after two iterations (a completed run). -/
theorem C10_witness :
    ((100000 : ℚ) ≤ 10^17) ∧
    ((reach 100000 (startState [(0, 100)]) 2).state.busy_time ≤
      (reach 100000 (startState [(0, 100)]) 2).state.current_time ∧
    (∀ k : StopKind, (reach 100000 (startState [(0, 100)]) 2).stop = some k →
      k ≠ .horizon →
      (reach 100000 (startState [(0, 100)]) 2).state.busy_time ≤
        makespan (reach 100000 (startState [(0, 100)]) 2).state.procs ∧
      (1 ≤ makespan (reach 100000 (startState [(0, 100)]) 2).state.procs →
        cpu_util (reach 100000 (startState [(0, 100)]) 2).state ≤ 100))) :=
  ⟨by norm_num, C10_busy_utilization [(0, 100)] 100000 2 (by norm_num)⟩

/-- First iteration of the C10 counterexample run: the 10 ms job completes
after 5 ms at the high level. -/
theorem c10_step1 :
    stepF 100 ⟨[⟨1, 0, 10, 10, -1, -1⟩, ⟨2, 0, 1000, 1000, -1, -1⟩], 0, 0, 0, [], []⟩ =
      ⟨⟨[⟨1, 0, 10, 0, 0, 5⟩, ⟨2, 0, 1000, 1000, -1, -1⟩], 5, 9/400, 5,
        [(1, 5)], [.run 1 5 2]⟩, none⟩ := by
  norm_num [stepF, readyOf, readyAux, nextArrival, nextArrAux, nextEvent, nextEvAux,
    SENTINEL, eps, busyStep, runTimeOf, runUntilOf, selFl, selFi, selEntry, chosenFi,
    pick_frequency_index, short_threshold, util_threshold, pick_next_process_index,
    pick_next_aux, execState, runProcOf, ganttAppend, defaultPowerModel, defaultFL,
    show Int.toNat 2 = 2 from rfl, show Int.toNat 1 = 1 from rfl,
    show Int.toNat 0 = 0 from rfl]

/-- Second iteration: the long job runs a full 50 ms quantum. -/
theorem c10_step2 :
    stepF 100 ⟨[⟨1, 0, 10, 0, 0, 5⟩, ⟨2, 0, 1000, 1000, -1, -1⟩], 5, 9/400, 5,
        [(1, 5)], [.run 1 5 2]⟩ =
      ⟨⟨[⟨1, 0, 10, 0, 0, 5⟩, ⟨2, 0, 1000, 900, 5, -1⟩], 55, 99/400, 55,
        [(1, 5), (2, 50)], [.run 1 5 2, .run 2 50 2]⟩, none⟩ := by
  norm_num [stepF, readyOf, readyAux, nextArrival, nextArrAux, nextEvent, nextEvAux,
    SENTINEL, eps, busyStep, runTimeOf, runUntilOf, selFl, selFi, selEntry, chosenFi,
    pick_frequency_index, short_threshold, util_threshold, pick_next_process_index,
    pick_next_aux, execState, runProcOf, ganttAppend, defaultPowerModel, defaultFL,
    show Int.toNat 2 = 2 from rfl, show Int.toNat 1 = 1 from rfl,
    show Int.toNat 0 = 0 from rfl]

/-- Third iteration: another full quantum pushes the clock past the
horizon, stopping with the long job incomplete. -/
theorem c10_step3 :
    stepF 100 ⟨[⟨1, 0, 10, 0, 0, 5⟩, ⟨2, 0, 1000, 900, 5, -1⟩], 55, 99/400, 55,
        [(1, 5), (2, 50)], [.run 1 5 2, .run 2 50 2]⟩ =
      ⟨⟨[⟨1, 0, 10, 0, 0, 5⟩, ⟨2, 0, 1000, 800, 5, -1⟩], 105, 189/400, 105,
        [(1, 5), (2, 100)], [.run 1 5 2, .run 2 50 2, .run 2 50 2]⟩,
        some .horizon⟩ := by
  norm_num [stepF, readyOf, readyAux, nextArrival, nextArrAux, nextEvent, nextEvAux,
    SENTINEL, eps, busyStep, runTimeOf, runUntilOf, selFl, selFi, selEntry, chosenFi,
    pick_frequency_index, short_threshold, util_threshold, pick_next_process_index,
    pick_next_aux, execState, runProcOf, ganttAppend, defaultPowerModel, defaultFL,
    show Int.toNat 2 = 2 from rfl, show Int.toNat 1 = 1 from rfl,
    show Int.toNat 0 = 0 from rfl]

/-- Counterexample to C10 as stated: the run over jobs (0,10) and (0,1000)
with horizon 100 ms stops at the horizon with busy time 105 ms but
makespan 5 ms (only the short job finished), so busy time exceeds the
makespan and the reported utilization is 2100 percent although the
makespan is at least 1 ms. -/
theorem C10_counterexample :
    (reach 100 (startState [(0, 10), (0, 1000)]) 3).stop = some .horizon ∧
    (reach 100 (startState [(0, 10), (0, 1000)]) 3).state.busy_time = 105 ∧
    makespan (reach 100 (startState [(0, 10), (0, 1000)]) 3).state.procs = 5 ∧
    cpu_util (reach 100 (startState [(0, 10), (0, 1000)]) 3).state = 2100 ∧
    ¬((reach 100 (startState [(0, 10), (0, 1000)]) 3).state.busy_time ≤
      makespan (reach 100 (startState [(0, 10), (0, 1000)]) 3).state.procs) ∧
    1 ≤ makespan (reach 100 (startState [(0, 10), (0, 1000)]) 3).state.procs ∧
    ¬(cpu_util (reach 100 (startState [(0, 10), (0, 1000)]) 3).state ≤ 100) := by
  have hload : startState [(0, 10), (0, 1000)] =
      ⟨[⟨1, 0, 10, 10, -1, -1⟩, ⟨2, 0, 1000, 1000, -1, -1⟩], 0, 0, 0, [], []⟩ := by
    norm_num [startState, resetForRun, loadState, initSim, load_processes, mkProcess,
      List.enum, List.enumFrom]
  have hfinal : reach 100 (startState [(0, 10), (0, 1000)]) 3 =
      ⟨⟨[⟨1, 0, 10, 0, 0, 5⟩, ⟨2, 0, 1000, 800, 5, -1⟩], 105, 189/400, 105,
        [(1, 5), (2, 100)], [.run 1 5 2, .run 2 50 2, .run 2 50 2]⟩,
        some .horizon⟩ := by
    simp only [reach, advanceO, hload, c10_step1, c10_step2, c10_step3]
  rw [hfinal]
  norm_num [makespan, cpu_util]

/-!  Claim C5: termination. -/

/-- Number of processes whose arrival is still strictly in the future. -/
def futureCount (s : SimState) : Nat :=
  s.procs.countP (fun p => decide (s.current_time < p.arrival))

/-- Number of processes whose remaining demand is still above epsilon. -/
def notDoneCount (s : SimState) : Nat :=
  s.procs.countP (fun p => decide (eps < p.remaining))

/-- Number of full 50 ms quanta that still fit below the horizon. -/
def clockBudget (H : ℚ) (s : SimState) : Nat :=
  (⌈(H - s.current_time) / 50⌉).toNat + 1

/-- The termination measure of the simulation loop. -/
def simMeasure (H : ℚ) (s : SimState) : Nat :=
  futureCount s + notDoneCount s + clockBudget H s

/-- The clock budget never grows as the clock advances. -/
theorem clockBudget_mono (H : ℚ) (c1 c2 : ℚ) (h : c1 ≤ c2) :
    (⌈(H - c2) / 50⌉).toNat ≤ (⌈(H - c1) / 50⌉).toNat := by
  have hdiv : (H - c2) / 50 ≤ (H - c1) / 50 := by
    apply div_le_div_of_nonneg_right (by linarith)
    norm_num
  exact Int.toNat_le_toNat (Int.ceil_le_ceil hdiv)

/-- One continuing iteration strictly decreases the termination measure
and keeps the clock below the sentinel. -/
theorem step_measure (H : ℚ) (s : SimState) (hH : H ≤ 10^17)
    (hcl : s.current_time < SENTINEL) (hnext : (stepF H s).stop = none) :
    simMeasure H (stepF H s).state < simMeasure H s ∧
    (stepF H s).state.current_time < SENTINEL := by
  have hsent : (10:ℚ)^17 < SENTINEL := by norm_num [SENTINEL]
  rcases stepF_shape H s with
    ⟨_, _, heq⟩ | ⟨hre, na, heq, hgt, hnas, q0, hq0, hq0a⟩ | ⟨hre, hrt, _⟩ |
    ⟨hre, hd, hstate, hstops, halliff, hhor, hnone⟩
  · rw [heq] at hnext
    exact absurd hnext (by simp)
  · rw [heq]
    show simMeasure H (idleAdvance s na) < simMeasure H s ∧
      (idleAdvance s na).current_time < SENTINEL
    have hproc : (idleAdvance s na).procs = s.procs := rfl
    have hclk : (idleAdvance s na).current_time = na := rfl
    refine ⟨?_, hnas⟩
    have hfut : futureCount (idleAdvance s na) < futureCount s := by
      unfold futureCount
      rw [hproc, hclk]
      apply countP_lt_of_witness _ _ s.procs q0
      · intro a _ hqa
        have := of_decide_eq_true hqa
        exact decide_eq_true (lt_trans hgt this)
      · exact hq0
      · exact decide_eq_true (hq0a ▸ hgt)
      · apply decide_eq_false
        rw [← hq0a]
        exact lt_irrefl na
    have hnd : notDoneCount (idleAdvance s na) = notDoneCount s := rfl
    have hcb : clockBudget H (idleAdvance s na) ≤ clockBudget H s := by
      unfold clockBudget
      rw [hclk]
      have := clockBudget_mono H s.current_time na (le_of_lt hgt)
      omega
    unfold simMeasure
    omega
  · exact absurd hrt (not_le.mpr (runTime_pos s hre hcl))
  · obtain ⟨hle, hnall⟩ := hnone hnext
    obtain ⟨hget, ha, hr⟩ := selEntry_spec s hre
    have hghz : 0 < (selFl s).ghz := freq_ghz_pos (selFi s)
    obtain ⟨rrem, rpid, rarr, rburst, _, _⟩ := runProcOf_fields s
    have hclk : (execState s).current_time = s.current_time + runTimeOf s := rfl
    have hproc : (execState s).procs = s.procs.set (selEntry s).1 (runProcOf s) := rfl
    have hclklt : (execState s).current_time < SENTINEL := by
      rw [hclk] at hle ⊢
      linarith
    rw [hstate]
    refine ⟨?_, hclklt⟩
    have hcup : s.current_time < (execState s).current_time := by
      rw [hclk]; linarith
    -- future count never increases
    have hfut_le : futureCount (execState s) ≤ futureCount s := by
      unfold futureCount
      rw [hproc, hclk]
      have heq1 : (s.procs.set (selEntry s).1 (runProcOf s)).countP
          (fun p => decide (s.current_time + runTimeOf s < p.arrival)) =
          s.procs.countP
          (fun p => decide (s.current_time + runTimeOf s < p.arrival)) := by
        apply countP_set_eq _ s.procs _ (selEntry s).2 _ hget
        simp only [rarr]
      rw [heq1]
      apply List.countP_mono_left
      intro a _ hqa
      have := of_decide_eq_true hqa
      exact decide_eq_true (by linarith)
    -- remaining-demand count never increases
    have hnd_le : notDoneCount (execState s) ≤ notDoneCount s := by
      unfold notDoneCount
      rw [hproc]
      apply countP_set_le _ s.procs _ (runProcOf s)
      intro a hga hbq
      rw [hget] at hga
      obtain rfl : (selEntry s).2 = a := by injection hga
      have h1 := of_decide_eq_true hbq
      rw [rrem] at h1
      have h2 : eps < (selEntry s).2.remaining - runTimeOf s * (selFl s).ghz := by
        rcases max_cases 0 ((selEntry s).2.remaining - runTimeOf s * (selFl s).ghz) with
          ⟨hm, _⟩ | ⟨hm, _⟩
        · rw [hm] at h1
          exact absurd h1 (by norm_num [eps])
        · rw [hm] at h1
          exact h1
      have hwork : 0 < runTimeOf s * (selFl s).ghz := mul_pos hd hghz
      exact decide_eq_true (by linarith)
    have hcb_le : clockBudget H (execState s) ≤ clockBudget H s := by
      unfold clockBudget
      rw [hclk]
      have := clockBudget_mono H s.current_time (s.current_time + runTimeOf s)
        (by linarith)
      omega
    by_cases hA : runUntilOf s =
        s.current_time + (selEntry s).2.remaining / (selFl s).ghz
    · -- the job completes: notDoneCount strictly drops
      have hrt : runTimeOf s = (selEntry s).2.remaining / (selFl s).ghz := by
        rw [runTimeOf, hA]; ring
      have hdone : (runProcOf s).remaining = 0 := by
        rw [rrem, hrt, div_mul_cancel₀ _ (ne_of_gt hghz)]
        simp
      have hnd_lt : notDoneCount (execState s) < notDoneCount s := by
        unfold notDoneCount
        rw [hproc]
        apply countP_set_lt _ s.procs _ (selEntry s).2 _ hget
        · exact decide_eq_true hr
        · apply decide_eq_false
          rw [hdone]
          norm_num [eps]
      unfold simMeasure
      omega
    · by_cases hB : runUntilOf s = nextEvent s.procs s.current_time
      · -- preempted by an arrival: futureCount strictly drops
        have hnev : nextEvent s.procs s.current_time = (execState s).current_time := by
          rw [hclk, runTimeOf] at *
          rw [← hB]
          ring
        have hnesm : nextEvent s.procs s.current_time < SENTINEL := by
          rw [hnev, hclk]
          linarith
        rcases nextEvAux_cases s.current_time s.procs SENTINEL with hsent2 | ⟨q1, hq1, hv1, ht1⟩
        · rw [nextEvent] at hnesm
          rw [hsent2] at hnesm
          exact absurd hnesm (lt_irrefl _)
        · have hfut_lt : futureCount (execState s) < futureCount s := by
            unfold futureCount
            rw [hproc, hclk]
            have heq1 : (s.procs.set (selEntry s).1 (runProcOf s)).countP
                (fun p => decide (s.current_time + runTimeOf s < p.arrival)) =
                s.procs.countP
                (fun p => decide (s.current_time + runTimeOf s < p.arrival)) := by
              apply countP_set_eq _ s.procs _ (selEntry s).2 _ hget
              simp only [rarr]
            rw [heq1]
            apply countP_lt_of_witness _ _ s.procs q1
            · intro a _ hqa
              have := of_decide_eq_true hqa
              exact decide_eq_true (by linarith)
            · exact hq1
            · exact decide_eq_true ht1
            · apply decide_eq_false
              intro hcon
              rw [nextEvent] at hnev
              rw [hv1] at hnev
              rw [hclk] at hnev
              linarith
          unfold simMeasure
          omega
      · -- a full quantum ran: the clock budget strictly drops
        have hq50 : runUntilOf s = s.current_time + 50 := by
          have h3 := runUntil_eq_min3 s
          rcases min_cases (min (s.current_time +
              (selEntry s).2.remaining / (selFl s).ghz)
              (nextEvent s.procs s.current_time)) (s.current_time + 50) with
            ⟨hm, _⟩ | ⟨hm, _⟩
          · rcases min_cases (s.current_time +
                (selEntry s).2.remaining / (selFl s).ghz)
                (nextEvent s.procs s.current_time) with ⟨hm2, _⟩ | ⟨hm2, _⟩
            · exact absurd (h3.trans (hm.trans hm2)) hA
            · exact absurd (h3.trans (hm.trans hm2)) hB
          · exact h3.trans hm
        have hrt50 : runTimeOf s = 50 := by
          rw [runTimeOf, hq50]; ring
        have hcb_lt : clockBudget H (execState s) < clockBudget H s := by
          unfold clockBudget
          rw [hclk, hrt50]
          have h50 : (50:ℚ) ≤ H - s.current_time := by
            rw [hclk, hrt50] at hle
            linarith
          have hone : (1:ℚ) ≤ (H - s.current_time) / 50 := by
            rw [le_div_iff₀ (by norm_num : (0:ℚ) < 50)]
            linarith
          have hceil1 : (1:ℤ) ≤ ⌈(H - s.current_time) / 50⌉ := by
            have := Int.ceil_le_ceil hone
            simpa using this
          have hsub : (H - (s.current_time + 50)) / 50 =
              (H - s.current_time) / 50 - 1 := by
            rw [show H - (s.current_time + 50) = (H - s.current_time) - 50 by ring,
              sub_div]
            norm_num
          rw [hsub, Int.ceil_sub_one]
          omega
        unfold simMeasure
        omega

/-- Iteration commutes with taking one continuing step first. -/
theorem reach_shift (H : ℚ) (s s2 : SimState) (hs : stepF H s = ⟨s2, none⟩) :
    ∀ n : Nat, reach H s (n+1) = reach H s2 n := by
  intro n
  induction n with
  | zero =>
    show advanceO H (reach H s 0) = _
    simp [reach, advanceO, hs]
  | succ n ih =>
    show advanceO H (reach H s (n+1)) = _
    rw [ih]
    rfl

/-- The loop stops from every state whose clock is below the sentinel,
within a number of iterations bounded by the measure. -/
theorem reach_stops (H : ℚ) (hH : H ≤ 10^17) :
    ∀ (m : Nat) (s : SimState), simMeasure H s ≤ m → s.current_time < SENTINEL →
      ∃ n k, (reach H s n).stop = some k := by
  intro m
  induction m with
  | zero =>
    intro s hm hcl
    rcases hstop : (stepF H s).stop with _ | k
    · obtain ⟨hlt, _⟩ := step_measure H s hH hcl hstop
      omega
    · exact ⟨1, k, by simp [reach, advanceO, hstop]⟩
  | succ m ih =>
    intro s hm hcl
    rcases hstop : (stepF H s).stop with _ | k
    · obtain ⟨hlt, hcl2⟩ := step_measure H s hH hcl hstop
      obtain ⟨n, k, hn⟩ := ih (stepF H s).state (by omega) hcl2
      refine ⟨n+1, k, ?_⟩
      have hs : stepF H s = ⟨(stepF H s).state, none⟩ := by
        have : stepF H s = ⟨(stepF H s).state, (stepF H s).stop⟩ := rfl
        rw [this, hstop]
      rw [reach_shift H s (stepF H s).state hs n]
      exact hn
    · exact ⟨1, k, by simp [reach, advanceO, hstop]⟩

/-- C5 (amended for the 1e18 sentinel): for every finite job set and every
horizon up to 10^17 ms (the program configures 100000), the simulation
loop terminates; at a horizon stop the clock exceeds the horizon and some
job is incomplete, and at every other stop every job has either remaining
demand ≤ epsilon (normal completion) or an arrival at or beyond the 10^18
ms sentinel (such jobs are invisible to the engine and never scheduled). -/
theorem C5_termination (jobs : List (ℚ × ℚ)) (H : ℚ) (hH : H ≤ 10^17) :
    ∃ (n : Nat) (k : StopKind),
      (reach H (startState jobs) n).stop = some k ∧
      (k = .horizon → H < (reach H (startState jobs) n).state.current_time ∧
        ∃ q ∈ (reach H (startState jobs) n).state.procs, eps < q.remaining) ∧
      (k ≠ .horizon → ∀ q ∈ (reach H (startState jobs) n).state.procs,
        q.remaining ≤ eps ∨ SENTINEL ≤ q.arrival) := by
  have hcl0 : (startState jobs).current_time < SENTINEL := by
    norm_num [startState, resetForRun, loadState, initSim, SENTINEL]
  obtain ⟨n, k, hstop⟩ :=
    reach_stops H hH (simMeasure H (startState jobs)) (startState jobs) (le_refl _) hcl0
  obtain ⟨hidle, hall, hhor⟩ := reach_stop_classify H (startState jobs) n k hstop
  refine ⟨n, k, hstop, hhor, ?_⟩
  intro hk q hq
  match k with
  | .horizon => exact absurd rfl hk
  | .allDone => exact Or.inl (hall rfl q hq)
  | .idleDone =>
    obtain ⟨hre, hnofut⟩ := hidle rfl
    by_cases harr : q.arrival ≤ (reach H (startState jobs) n).state.current_time
    · left
      have hnr := (readyAux_eq_nil_iff
        (reach H (startState jobs) n).state.current_time
        (reach H (startState jobs) n).state.procs 0).mp hre q hq
      by_contra hc
      exact hnr ⟨harr, lt_of_not_le hc⟩
    · right
      have := hnofut q hq
      by_contra hc
      exact this ⟨lt_of_not_le harr, lt_of_not_le hc⟩

/-- Counterexample to C5 as stated: a single job arriving at the 10^18 ms
sentinel makes the loop terminate immediately with the job incomplete and
the clock far below the configured horizon — neither of the two stop
conditions of the claim. -/
theorem C5_counterexample :
    (reach 100000 (startState [(10^18, 100)]) 1).stop = some .idleDone ∧
    (∃ q ∈ (reach 100000 (startState [(10^18, 100)]) 1).state.procs,
      eps < q.remaining) ∧
    (reach 100000 (startState [(10^18, 100)]) 1).state.current_time = 0 ∧
    ¬(100000 < (reach 100000 (startState [(10^18, 100)]) 1).state.current_time) := by
  have hstart : startState [(10^18, 100)] =
      ⟨[⟨1, 10^18, 100, 100, -1, -1⟩], 0, 0, 0, [], []⟩ := by
    norm_num [startState, resetForRun, loadState, initSim, load_processes, mkProcess,
      List.enum, List.enumFrom]
  have hstep : stepF 100000 (⟨[⟨1, 10^18, 100, 100, -1, -1⟩], 0, 0, 0, [], []⟩ : SimState) =
      ⟨⟨[⟨1, 10^18, 100, 100, -1, -1⟩], 0, 0, 0, [], []⟩, some .idleDone⟩ := by
    norm_num [stepF, readyOf, readyAux, nextArrival, nextArrAux, SENTINEL, eps]
  have hfinal : reach 100000 (startState [(10^18, 100)]) 1 =
      ⟨⟨[⟨1, 10^18, 100, 100, -1, -1⟩], 0, 0, 0, [], []⟩, some .idleDone⟩ := by
    simp only [reach, advanceO, hstart, hstep]
  rw [hfinal]
  refine ⟨rfl, ⟨⟨1, 10^18, 100, 100, -1, -1⟩, by simp, by norm_num [eps]⟩, rfl, by norm_num⟩

/-- Witness for C5 at the single job (arrival 0, burst 100) with the
configured horizon 100000. -/
theorem C5_witness :
    ((100000 : ℚ) ≤ 10^17) ∧
    (∃ (n : Nat) (k : StopKind),
      (reach 100000 (startState [(0, 100)]) n).stop = some k ∧
      (k = .horizon →
        (100000 : ℚ) < (reach 100000 (startState [(0, 100)]) n).state.current_time ∧
        ∃ q ∈ (reach 100000 (startState [(0, 100)]) n).state.procs, eps < q.remaining) ∧
      (k ≠ .horizon → ∀ q ∈ (reach 100000 (startState [(0, 100)]) n).state.procs,
        q.remaining ≤ eps ∨ SENTINEL ≤ q.arrival)) :=
  ⟨by norm_num, C5_termination [(0, 100)] 100000 (by norm_num)⟩

/-!  Claim C9: input handling of main. -/

/-- A whitespace-separated token of the input file: either one that parses
as a number or a malformed one (operator>> extraction failure). -/
inductive Token where
  | num (q : ℚ)
  | bad
deriving DecidableEq

/-- Mirrors the read loop while(ifs >> a >> b) jobs.push_back({a,b}):
consume two numeric tokens at a time; the first extraction failure stops
parsing silently, discarding any half-read pair. -/
def parsePairs : List Token → List (ℚ × ℚ)
  | .num a :: .num b :: rest => (a, b) :: parsePairs rest
  | _ => []

/-- Mirrors sample_input(). -/
def sample_input : List (ℚ × ℚ) :=
  [(0, 120), (20, 30), (40, 50), (100, 200), (150, 20), (300, 400), (350, 60)]

/-- Outcome of the modelled main: process exit code, whether the
simulation ran, and the simulator output when it did. -/
structure MainOut where
  exitCode : Nat
  ran : Bool
  final : Option StepOut
deriving DecidableEq

/-- Iteration fuel used by the modelled main (the C9 statements do not
depend on its value). -/
def mainFuel (jobs : List (ℚ × ℚ)) : Nat := 3 * jobs.length + 2006

/-- One full simulate_eadvfs call from a fresh simulator, as main performs
it with horizon 100000. -/
def runSim (jobs : List (ℚ × ℚ)) : StepOut :=
  reach 100000 (startState jobs) (mainFuel jobs)

/-- Shallow model of main: `none` models no command-line argument (the
sample workload is used); `some none` models an argument naming a file
that cannot be opened (ifstream failure, message to stderr, return 1);
`some (some toks)` models an opened file with token list toks. -/
def mainModel (input : Option (Option (List Token))) : MainOut :=
  match input with
  | some none => ⟨1, false, none⟩
  | some (some toks) => ⟨0, true, some (runSim (parsePairs toks))⟩
  | none => ⟨0, true, some (runSim sample_input)⟩

/-- C9 (amended): only a missing/unreadable job file is a hard failure
(exit 1, no simulation).  An opened file — malformed or empty — is never
rejected: parsing silently stops at the first malformed token, and the
simulation proceeds with exit code 0 on whatever pairs were read (possibly
none). -/
theorem C9_input_handling :
    (mainModel (some none)).exitCode = 1 ∧
    (mainModel (some none)).ran = false ∧
    (mainModel (some none)).final = none ∧
    (∀ toks : List Token, (mainModel (some (some toks))).exitCode = 0 ∧
      (mainModel (some (some toks))).ran = true ∧
      (mainModel (some (some toks))).final = some (runSim (parsePairs toks))) ∧
    parsePairs [] = [] ∧
    parsePairs [.bad] = [] ∧
    (∀ (a : ℚ) (rest : List Token), parsePairs (.num a :: .bad :: rest) = []) ∧
    (∀ (a b : ℚ) (rest : List Token),
      parsePairs (.num a :: .num b :: rest) = (a, b) :: parsePairs rest) :=
  ⟨rfl, rfl, rfl, fun _ => ⟨rfl, rfl, rfl⟩, rfl, rfl, fun _ _ => rfl, fun _ _ _ => rfl⟩

/-- Counterexample to C9 as stated: an empty job source and a malformed
job source both let the run proceed with exit code 0, instead of being
hard, immediately-reported failures with non-zero exit. -/
theorem C9_counterexample :
    (mainModel (some (some []))).exitCode = 0 ∧
    (mainModel (some (some []))).ran = true ∧
    (mainModel (some (some [.bad]))).exitCode = 0 ∧
    (mainModel (some (some [.bad]))).ran = true :=
  ⟨rfl, rfl, rfl, rfl⟩

end EADVFS
